import Mathlib

/-!
Verification of the memory-management simulator core: page tables, the
free-frame pool, FIFO/LRU victim selection and the per-access state machine,
shallowly embedded from `src/page_table/page_table.cpp`,
`src/process/process.cpp` and `src/simulation/simulation.cpp`.

Logical timestamps are modelled as `Nat`; the C++ sentinel `INT_MAX` used by
the victim scans is kept explicit.
-/

/-- The C++ `INT_MAX` sentinel used to initialise the victim scans. -/
def INT_MAX : Nat := 2147483647

/-- A page-table entry, as in the spec data model: `present`, `frame`,
`loaded_at`, `last_accessed_at`. -/
structure PageTableRow where
  present : Bool
  frame : Nat
  loaded_at : Nat
  last_accessed_at : Nat
deriving DecidableEq

/-- A freshly constructed (never touched) page-table entry: not present, with
zeroed fields. Modelled from the spec: the `PageTableRow` constructor lives in
the missing header; the spec says entries are created all non-present. -/
def blankRow : PageTableRow :=
  { present := false, frame := 0, loaded_at := 0, last_accessed_at := 0 }

/-- A per-process page table: one row per virtual page index. -/
structure PageTable where
  rows : List PageTableRow
deriving DecidableEq

/-- Read row `i` (C++ `rows[i]`; out-of-range reads are undefined behaviour in
the source and default to `blankRow` here, but every use is bounds-checked). -/
def PageTable.rowAt (pt : PageTable) (i : Nat) : PageTableRow :=
  pt.rows.getD i blankRow

/-- Replace row `i` (C++ assignment to `rows[i]`). -/
def PageTable.setRow (pt : PageTable) (i : Nat) (r : PageTableRow) : PageTable :=
  ⟨pt.rows.set i r⟩

/-- `PageTable::get_present_page_count`: count of rows with `present` set. -/
def PageTable.get_present_page_count (pt : PageTable) : Nat :=
  pt.rows.countP (fun r => r.present)

/-- The linear scan shared by `get_oldest_page` and
`get_least_recently_used_page`: walk the rows keeping the index of the best
(present, strictly smaller `f`-value) candidate seen so far, starting from
index `0` and threshold `INT_MAX`. `f` selects the timestamp field compared. -/
def scanMinAux (f : PageTableRow → Nat) :
    List PageTableRow → Nat → Nat → Nat → Nat
  | [], _, best, _ => best
  | r :: rs, i, best, t =>
    if f r < t ∧ r.present = true then scanMinAux f rs (i + 1) i (f r)
    else scanMinAux f rs (i + 1) best t

/-- `PageTable::get_oldest_page`: index of the present row with minimal
`loaded_at` (first such row in an ascending scan), `0` if no row qualifies. -/
def PageTable.get_oldest_page (pt : PageTable) : Nat :=
  scanMinAux (fun r => r.loaded_at) pt.rows 0 0 INT_MAX

/-- `PageTable::get_least_recently_used_page`: index of the present row with
minimal `last_accessed_at`, `0` if no row qualifies. -/
def PageTable.get_least_recently_used_page (pt : PageTable) : Nat :=
  scanMinAux (fun r => r.last_accessed_at) pt.rows 0 0 INT_MAX

/-- Concrete page table used to check the FIFO victim scan. -/
def wOldPT : PageTable :=
  ⟨[{ present := true, frame := 0, loaded_at := 5, last_accessed_at := 7 },
    { present := true, frame := 1, loaded_at := 3, last_accessed_at := 9 },
    { present := false, frame := 2, loaded_at := 11, last_accessed_at := 11 }]⟩

/-- Concrete page table used to check the LRU victim scan. -/
def wLruPT : PageTable :=
  ⟨[{ present := false, frame := 0, loaded_at := 4, last_accessed_at := 4 },
    { present := true, frame := 1, loaded_at := 3, last_accessed_at := 9 },
    { present := true, frame := 2, loaded_at := 1, last_accessed_at := 2 }]⟩

/-- Concrete freshly-constructed page table (no present rows). -/
def wEmptyPT : PageTable :=
  ⟨[blankRow, blankRow, blankRow]⟩

theorem scanMinAux_of_none (f : PageTableRow → Nat) :
    ∀ (rs : List PageTableRow) (i best t : Nat),
      (∀ r ∈ rs, ¬ (f r < t ∧ r.present = true)) →
      scanMinAux f rs i best t = best := by
  intro rs
  induction rs with
  | nil => intro i best t _; rfl
  | cons r rs ih =>
    intro i best t h
    have hr := h r (List.mem_cons_self r rs)
    simp only [scanMinAux, if_neg hr]
    exact ih (i + 1) best t (fun x hx => h x (List.mem_cons_of_mem r hx))

/-- Characterisation of the victim scan: either no row improved on the initial
threshold `t` (and the initial candidate `best` is returned), or the result is
`i + k` for the lowest-index present row `k` whose `f`-value is the minimum
among present rows (and beats `t`). -/
theorem scanMinAux_spec (f : PageTableRow → Nat) :
    ∀ (rs : List PageTableRow) (i best t : Nat),
      (scanMinAux f rs i best t = best ∧
        ∀ k (hk : k < rs.length),
          (rs.get ⟨k, hk⟩).present = true → t ≤ f (rs.get ⟨k, hk⟩)) ∨
      (∃ k, ∃ hk : k < rs.length,
        scanMinAux f rs i best t = i + k ∧
        (rs.get ⟨k, hk⟩).present = true ∧
        f (rs.get ⟨k, hk⟩) < t ∧
        (∀ m (hm : m < rs.length), (rs.get ⟨m, hm⟩).present = true →
          f (rs.get ⟨k, hk⟩) ≤ f (rs.get ⟨m, hm⟩)) ∧
        (∀ m (hm : m < rs.length), m < k → (rs.get ⟨m, hm⟩).present = true →
          f (rs.get ⟨k, hk⟩) < f (rs.get ⟨m, hm⟩))) := by
  intro rs
  induction rs with
  | nil =>
    intro i best t
    left
    refine ⟨rfl, ?_⟩
    intro k hk
    exact absurd hk (Nat.not_lt_zero k)
  | cons r rs ih =>
    intro i best t
    by_cases hc : f r < t ∧ r.present = true
    · simp only [scanMinAux, if_pos hc]
      rcases ih (i + 1) i (f r) with ⟨heq, hall⟩ | ⟨k, hk, heq, hpres, hlt, hmin, hstrict⟩
      · right
        refine ⟨0, Nat.succ_pos _, ?_, ?_, hc.1, ?_, ?_⟩
        · simpa using heq
        · simpa using hc.2
        · intro m hm hpm
          match m with
          | 0 => simp
          | Nat.succ m' =>
            simp only [List.get_cons_succ] at hpm ⊢
            exact hall m' (Nat.lt_of_succ_lt_succ hm) hpm
        · intro m hm hm0
          exact absurd hm0 (Nat.not_lt_zero m)
      · right
        refine ⟨k + 1, Nat.succ_lt_succ hk, ?_, ?_, ?_, ?_, ?_⟩
        · rw [heq]; omega
        · simpa using hpres
        · simp only [List.get_cons_succ]
          exact Nat.lt_trans hlt hc.1
        · intro m hm hpm
          match m with
          | 0 =>
            simp only [List.get] at hpm ⊢
            exact Nat.le_of_lt hlt
          | Nat.succ m' =>
            simp only [List.get_cons_succ] at hpm ⊢
            exact hmin m' (Nat.lt_of_succ_lt_succ hm) hpm
        · intro m hm hmk hpm
          match m with
          | 0 =>
            simp only [List.get] at hpm ⊢
            exact hlt
          | Nat.succ m' =>
            simp only [List.get_cons_succ] at hpm ⊢
            exact hstrict m' (Nat.lt_of_succ_lt_succ hm) (Nat.lt_of_succ_lt_succ hmk) hpm
    · simp only [scanMinAux, if_neg hc]
      have hhead : r.present = true → t ≤ f r := by
        intro hp
        by_contra hnot
        exact hc ⟨Nat.lt_of_not_le hnot, hp⟩
      rcases ih (i + 1) best t with ⟨heq, hall⟩ | ⟨k, hk, heq, hpres, hlt, hmin, hstrict⟩
      · left
        refine ⟨heq, ?_⟩
        intro k hkk hpk
        match k with
        | 0 =>
          simp only [List.get] at hpk ⊢
          exact hhead hpk
        | Nat.succ k' =>
          simp only [List.get_cons_succ] at hpk ⊢
          exact hall k' (Nat.lt_of_succ_lt_succ hkk) hpk
      · right
        refine ⟨k + 1, Nat.succ_lt_succ hk, ?_, ?_, ?_, ?_, ?_⟩
        · rw [heq]; omega
        · simpa using hpres
        · simpa using hlt
        · intro m hm hpm
          match m with
          | 0 =>
            simp only [List.get] at hpm ⊢
            exact Nat.le_of_lt (Nat.lt_of_lt_of_le hlt (hhead hpm))
          | Nat.succ m' =>
            simp only [List.get_cons_succ] at hpm ⊢
            exact hmin m' (Nat.lt_of_succ_lt_succ hm) hpm
        · intro m hm hmk hpm
          match m with
          | 0 =>
            simp only [List.get] at hpm ⊢
            exact Nat.lt_of_lt_of_le hlt (hhead hpm)
          | Nat.succ m' =>
            simp only [List.get_cons_succ] at hpm ⊢
            exact hstrict m' (Nat.lt_of_succ_lt_succ hm) (Nat.lt_of_succ_lt_succ hmk) hpm

/-- The two page-replacement policies accepted by the simulator. -/
inductive ReplacementStrategy where
  | FIFO : ReplacementStrategy
  | LRU : ReplacementStrategy
deriving DecidableEq

/-- A process: its page table, its pages (modelled by their byte sizes, used
only for offset validation), and the two counters. -/
structure Process where
  page_table : PageTable
  pages : List Nat
  memory_accesses : Nat
  page_faults : Nat
deriving DecidableEq

/-- `Process::is_valid_page`: a page index is valid iff it is below the page
table size. -/
def Process.is_valid_page (p : Process) (index : Nat) : Bool :=
  decide (index < p.page_table.rows.length)

/-- `Process::get_rss`: the resident set size, i.e. the present-row count. -/
def Process.get_rss (p : Process) : Nat :=
  p.page_table.get_present_page_count

/-- Modelled from the spec: `Page::is_valid_offset` lives in `page.cpp`,
which is not under `src/`; the spec says an offset is valid iff it is inside
the page's valid byte range, so a byte offset is checked against the byte
size of the addressed page. -/
def Process.is_valid_offset (p : Process) (page offset : Nat) : Bool :=
  decide (offset < p.pages.getD page 0)

/-- The configuration flags the core consumes: verbosity, the per-process
frame budget and the replacement strategy. -/
structure FlagOptions where
  verbose : Bool
  max_frames : Nat
  strategy : ReplacementStrategy
deriving DecidableEq

/-- A virtual address from the trace: (process id, page index, byte offset). -/
structure VirtualAddress where
  process_id : Nat
  page : Nat
  offset : Nat
deriving DecidableEq

/-- The total number of physical frames, a simulation-wide constant
(`Simulation::NUM_FRAMES`, declared in the missing header; `run` fills the
free list with the literal `512`). -/
def NUM_FRAMES : Nat := 512

/-- The simulation state: flags, the process map (an association list keyed
by pid), the free-frame list, the global fault counter and the logical
clock. -/
structure Simulation where
  flags : FlagOptions
  processes : List (Nat × Process)
  free_frames : List Nat
  page_faults : Nat
  time : Nat
deriving DecidableEq

/-- Look up a process by pid (C++ `processes[pid]`; an absent pid is an
out-of-contract input handled by the collaborator). -/
def Simulation.lookupProcess (s : Simulation) (pid : Nat) : Option Process :=
  (s.processes.find? (fun pr => decide (pr.1 = pid))).map (fun pr => pr.2)

/-- Write back the (mutated) process for `pid` into the process map. -/
def Simulation.updateProcess (s : Simulation) (pid : Nat) (p : Process) :
    Simulation :=
  { s with processes := s.processes.map (fun pr => if pr.1 = pid then (pid, p) else pr) }

/-- `Simulation::handle_page_fault`: bump both fault counters, then either
take the first free frame (when the process is under its frame budget;
`front()` on an empty free list is undefined behaviour in the source, hence
`none` here) or evict the victim chosen by the configured strategy and reuse
its frame. `list::remove` erases every occurrence of the removed frame id. -/
def Simulation.handle_page_fault (s : Simulation) (proc : Process) (page : Nat) :
    Option (Simulation × Process) :=
  if proc.get_rss < s.flags.max_frames then
    match s.free_frames with
    | [] => none
    | frame_index :: _ =>
      some ({ s with page_faults := s.page_faults + 1,
                     free_frames := s.free_frames.filter (fun x => decide (x ≠ frame_index)) },
            { proc with page_faults := proc.page_faults + 1,
                        page_table := proc.page_table.setRow page
                          { present := true, frame := frame_index,
                            loaded_at := s.time, last_accessed_at := s.time } })
  else if s.flags.strategy = ReplacementStrategy.FIFO then
    some ({ s with page_faults := s.page_faults + 1 },
          { proc with page_faults := proc.page_faults + 1,
                      page_table :=
                        (proc.page_table.setRow proc.page_table.get_oldest_page
                          { proc.page_table.rowAt proc.page_table.get_oldest_page with
                            present := false }).setRow page
                          { present := true,
                            frame := (proc.page_table.rowAt proc.page_table.get_oldest_page).frame,
                            loaded_at := s.time, last_accessed_at := s.time } })
  else
    some ({ s with page_faults := s.page_faults + 1 },
          { proc with page_faults := proc.page_faults + 1,
                      page_table :=
                        (proc.page_table.setRow proc.page_table.get_least_recently_used_page
                          { proc.page_table.rowAt proc.page_table.get_least_recently_used_page with
                            present := false }).setRow page
                          { present := true,
                            frame := (proc.page_table.rowAt proc.page_table.get_least_recently_used_page).frame,
                            loaded_at := s.time, last_accessed_at := s.time } })

/-- The fatal faults the engine can report. -/
inductive FaultReason where
  | invalidPage : FaultReason
  | invalidOffset : FaultReason
deriving DecidableEq

/-- Result of one memory access: `ok` (processing continues), `segfault`
(the simulation terminates in the given state), or `stuck` (the source runs
into undefined behaviour: absent pid or `front()` on an empty free list). -/
inductive StepResult where
  | ok : Simulation → StepResult
  | segfault : Simulation → FaultReason → StepResult
  | stuck : StepResult
deriving DecidableEq

/-- `Simulation::perform_memory_access`: bump the access counter, bounds-check
the page index (fatal `invalidPage` on failure), then either record a hit
(update `last_accessed_at`) or handle the page fault; finally, only when the
verbose flag is set, validate the byte offset (fatal `invalidOffset`). -/
def Simulation.perform_memory_access (s : Simulation) (va : VirtualAddress) :
    StepResult :=
  match s.lookupProcess va.process_id with
  | none => StepResult.stuck
  | some proc0 =>
    let proc : Process := { proc0 with memory_accesses := proc0.memory_accesses + 1 }
    if proc.is_valid_page va.page = false then
      StepResult.segfault (s.updateProcess va.process_id proc) FaultReason.invalidPage
    else if (proc.page_table.rowAt va.page).present then
      let proc2 : Process :=
        { proc with
          page_table := proc.page_table.setRow va.page
            { proc.page_table.rowAt va.page with last_accessed_at := s.time } }
      if s.flags.verbose && !(proc2.is_valid_offset va.page va.offset) then
        StepResult.segfault (s.updateProcess va.process_id proc2) FaultReason.invalidOffset
      else
        StepResult.ok (s.updateProcess va.process_id proc2)
    else
      match s.handle_page_fault proc va.page with
      | none => StepResult.stuck
      | some (s2, proc2) =>
        if s2.flags.verbose && !(proc2.is_valid_offset va.page va.offset) then
          StepResult.segfault (s2.updateProcess va.process_id proc2) FaultReason.invalidOffset
        else
          StepResult.ok (s2.updateProcess va.process_id proc2)

/-- Outcome of running a trace to completion: `finished` (trace exhausted),
`halted` (a fatal fault stopped the run), or `stuck` (undefined behaviour). -/
inductive SimOutcome where
  | finished : Simulation → SimOutcome
  | halted : Simulation → FaultReason → SimOutcome
  | stuck : SimOutcome
deriving DecidableEq

/-- The trace loop of `Simulation::run`: process accesses in order, bumping
the logical clock once after each completed access; a fatal fault aborts the
remaining trace. -/
def runAux : Simulation → List VirtualAddress → SimOutcome
  | s, [] => SimOutcome.finished s
  | s, va :: rest =>
    match s.perform_memory_access va with
    | StepResult.ok s2 => runAux { s2 with time := s2.time + 1 } rest
    | StepResult.segfault s2 r => SimOutcome.halted s2 r
    | StepResult.stuck => SimOutcome.stuck

/-- `Simulation::run`: push the `NUM_FRAMES` frame identifiers `0..511` onto
the free list, then process the whole trace. -/
def Simulation.run (s : Simulation) (t : List VirtualAddress) : SimOutcome :=
  runAux { s with free_frames := s.free_frames ++ List.range 512 } t

/-- The state reached after fully processing a prefix of the trace (`none` if
the run halts or gets stuck strictly before the prefix ends; a prefix whose
last access segfaults yields the halting state). -/
def runPrefix : Simulation → List VirtualAddress → Option Simulation
  | s, [] => some s
  | s, va :: rest =>
    match s.perform_memory_access va with
    | StepResult.ok s2 => runPrefix { s2 with time := s2.time + 1 } rest
    | StepResult.segfault s2 _ => if rest.isEmpty then some s2 else none
    | StepResult.stuck => none

/-- A freshly constructed process with `n` pages (all rows non-present) and
the given per-page byte sizes. -/
def freshProcess (n : Nat) (sizes : List Nat) : Process :=
  { page_table := ⟨List.replicate n blankRow⟩, pages := sizes,
    memory_accesses := 0, page_faults := 0 }

/-- `true` iff the outcome is a normally finished run. -/
def isFinished : SimOutcome → Bool
  | SimOutcome.finished _ => true
  | _ => false

/-- Replace the configured replacement strategy, leaving all other state
untouched (used to compare the two policies on identical inputs). -/
def Simulation.setStrategy (s : Simulation) (strat : ReplacementStrategy) :
    Simulation :=
  { s with flags := { s.flags with strategy := strat } }

/-- Map a function over the state carried by a step result. -/
def mapStep (f : Simulation → Simulation) : StepResult → StepResult
  | StepResult.ok s => StepResult.ok (f s)
  | StepResult.segfault s r => StepResult.segfault (f s) r
  | StepResult.stuck => StepResult.stuck

/-- Map a function over the state carried by a run outcome. -/
def mapOutcome (f : Simulation → Simulation) : SimOutcome → SimOutcome
  | SimOutcome.finished s => SimOutcome.finished (f s)
  | SimOutcome.halted s r => SimOutcome.halted (f s) r
  | SimOutcome.stuck => SimOutcome.stuck

/-- Concrete initialised simulation with a one-frame budget, used as witness
input for the run-level claims. -/
def wSim : Simulation :=
  { flags := { verbose := false, max_frames := 1, strategy := ReplacementStrategy.FIFO },
    processes := [(0, freshProcess 2 [16, 16])],
    free_frames := List.range NUM_FRAMES, page_faults := 0, time := 0 }

/-- Concrete trace for the run-level witnesses. -/
def wTrace : List VirtualAddress := [⟨0, 0, 0⟩, ⟨0, 1, 5⟩, ⟨0, 0, 3⟩]

/-- Concrete initialised simulation whose frame budget is zero: the input on
which the unamended budget and frame-conservation claims fail. -/
def cSim : Simulation :=
  { flags := { verbose := false, max_frames := 0, strategy := ReplacementStrategy.FIFO },
    processes := [(0, freshProcess 1 [16])],
    free_frames := List.range NUM_FRAMES, page_faults := 0, time := 0 }

/-- One-access trace for the zero-budget counterexample. -/
def cTrace : List VirtualAddress := [⟨0, 0, 0⟩]

/-- Non-verbose simulation whose single page holds one valid byte: accesses
at offset 7 have an invalid offset, yet the run finishes normally. -/
def cOffSim : Simulation :=
  { flags := { verbose := false, max_frames := 1, strategy := ReplacementStrategy.FIFO },
    processes := [(0, freshProcess 1 [1])],
    free_frames := List.range NUM_FRAMES, page_faults := 0, time := 0 }

/-- Trace with two invalid-offset accesses for the offset counterexample. -/
def cOffTrace : List VirtualAddress := [⟨0, 0, 7⟩, ⟨0, 0, 7⟩]

/-- The verbose twin of `cOffSim`, on which the offset check does fire. -/
def wOffSim : Simulation :=
  { flags := { verbose := true, max_frames := 1, strategy := ReplacementStrategy.FIFO },
    processes := [(0, freshProcess 1 [1])],
    free_frames := List.range NUM_FRAMES, page_faults := 0, time := 0 }

/-- Update of the process association list, as performed by
`Simulation.updateProcess`. -/
def updList (l : List (Nat × Process)) (pid : Nat) (p : Process) :
    List (Nat × Process) :=
  l.map (fun pr => if pr.1 = pid then (pid, p) else pr)

/-- Temporal well-formedness: in every row, `loaded_at ≤ last_accessed_at`,
and present rows were last touched strictly before the current clock. -/
abbrev TimeInv (s : Simulation) : Prop :=
  ∀ pr ∈ s.processes, ∀ r ∈ pr.2.page_table.rows,
    r.loaded_at ≤ r.last_accessed_at ∧
    (r.present = true → r.last_accessed_at < s.time)

/-- Every process respects its frame budget. -/
abbrev BudgetInv (s : Simulation) : Prop :=
  ∀ pr ∈ s.processes, pr.2.get_rss ≤ s.flags.max_frames

/-- Frame conservation: resident pages plus free frames account for all
`NUM_FRAMES` physical frames. -/
abbrev FramesInv (s : Simulation) : Prop :=
  (s.processes.map (fun pr => pr.2.get_rss)).sum + s.free_frames.length = NUM_FRAMES

/-- The process map has no duplicate pids. -/
abbrev KeysNodup (s : Simulation) : Prop :=
  (s.processes.map Prod.fst).Nodup

/-- The free-frame list has no duplicate identifiers. -/
abbrev FreeNodup (s : Simulation) : Prop :=
  s.free_frames.Nodup

/-- The state of the simulation right after `run`'s initialisation: clock at
zero, the free list holding the `NUM_FRAMES` frame identifiers
`0..NUM_FRAMES-1`, distinct pids, and every page-table entry still in its
freshly-constructed (non-present) state. -/
abbrev InitialSim (s : Simulation) : Prop :=
  s.time = 0 ∧
  s.free_frames = List.range NUM_FRAMES ∧
  (s.processes.map Prod.fst).Nodup ∧
  ∀ pr ∈ s.processes, ∀ r ∈ pr.2.page_table.rows, r = blankRow

theorem getD_set_self {α : Type _} (d : α) :
    ∀ (l : List α) (i : Nat) (r : α), i < l.length → (l.set i r).getD i d = r := by
  intro l
  induction l with
  | nil => intro i r h; exact absurd h (Nat.not_lt_zero i)
  | cons x xs ih =>
    intro i r h
    match i with
    | 0 => rfl
    | Nat.succ j => exact ih j r (Nat.lt_of_succ_lt_succ h)

theorem getD_set_ne {α : Type _} (d : α) :
    ∀ (l : List α) (i j : Nat) (r : α), i ≠ j → (l.set i r).getD j d = l.getD j d := by
  intro l
  induction l with
  | nil => intro i j r _; rfl
  | cons x xs ih =>
    intro i j r hij
    match i, j with
    | 0, 0 => exact absurd rfl hij
    | 0, Nat.succ j' => rfl
    | Nat.succ i', 0 => rfl
    | Nat.succ i', Nat.succ j' =>
      exact ih i' j' r (fun hcon => hij (congrArg Nat.succ hcon))

theorem mem_set_cases {α : Type _} :
    ∀ (l : List α) (i : Nat) (r x : α), x ∈ l.set i r → x = r ∨ x ∈ l := by
  intro l
  induction l with
  | nil => intro i r x hx; exact Or.inr hx
  | cons y ys ih =>
    intro i r x hx
    match i with
    | 0 =>
      rcases List.mem_cons.mp hx with h | h
      · exact Or.inl h
      · exact Or.inr (List.mem_cons_of_mem y h)
    | Nat.succ j =>
      rcases List.mem_cons.mp hx with h | h
      · exact Or.inr (h ▸ List.mem_cons_self y ys)
      · rcases ih j r x h with h2 | h2
        · exact Or.inl h2
        · exact Or.inr (List.mem_cons_of_mem y h2)

theorem countP_set_getD {α : Type _} (p : α → Bool) (d : α) :
    ∀ (l : List α) (i : Nat) (r : α), i < l.length →
      (l.set i r).countP p + (if p (l.getD i d) then 1 else 0) =
        l.countP p + (if p r then 1 else 0) := by
  intro l
  induction l with
  | nil => intro i r h; exact absurd h (Nat.not_lt_zero i)
  | cons x xs ih =>
    intro i r h
    match i with
    | 0 =>
      simp only [List.set, List.getD_cons_zero, List.countP_cons]
      omega
    | Nat.succ j =>
      simp only [List.set, List.getD_cons_succ, List.countP_cons]
      have := ih j r (Nat.lt_of_succ_lt_succ h)
      omega

theorem updList_map_fst (l : List (Nat × Process)) (pid : Nat) (p : Process) :
    (updList l pid p).map Prod.fst = l.map Prod.fst := by
  induction l with
  | nil => rfl
  | cons pr rest ih =>
    simp only [updList, List.map_cons] at ih ⊢
    by_cases hk : pr.1 = pid
    · simp [if_pos hk, hk, ih]
    · simp [if_neg hk, ih]

theorem mem_updList (l : List (Nat × Process)) (pid : Nat) (p : Process) :
    ∀ x ∈ updList l pid p, x = (pid, p) ∨ x ∈ l := by
  intro x hx
  rcases List.mem_map.mp hx with ⟨pr, hpr, heq⟩
  by_cases hk : pr.1 = pid
  · simp only [if_pos hk] at heq
    exact Or.inl heq.symm
  · simp only [if_neg hk] at heq
    exact Or.inr (heq ▸ hpr)

theorem updList_of_not_mem (l : List (Nat × Process)) (pid : Nat) (p : Process)
    (h : pid ∉ l.map Prod.fst) : updList l pid p = l := by
  induction l with
  | nil => rfl
  | cons pr rest ih =>
    simp only [List.map_cons, List.mem_cons] at h
    push_neg at h
    simp only [updList, List.map_cons]
    rw [if_neg (fun hk => h.1 hk.symm)]
    have := ih h.2
    simp only [updList] at this
    rw [this]

theorem sum_updList (f : Process → Nat) :
    ∀ (l : List (Nat × Process)) (pid : Nat) (q p : Process),
      (l.map Prod.fst).Nodup → (pid, q) ∈ l →
      ((updList l pid p).map (fun pr => f pr.2)).sum + f q =
        (l.map (fun pr => f pr.2)).sum + f p := by
  intro l
  induction l with
  | nil => intro pid q p _ hmem; exact absurd hmem (List.not_mem_nil _)
  | cons pr rest ih =>
    intro pid q p hnd hmem
    simp only [List.map_cons, List.nodup_cons] at hnd
    by_cases hk : pr.1 = pid
    · have hq : pr = (pid, q) := by
        rcases List.mem_cons.mp hmem with h | h
        · exact h.symm
        · exfalso
          exact hnd.1 (hk ▸ List.mem_map.mpr ⟨(pid, q), h, rfl⟩)
      have hrest : pid ∉ rest.map Prod.fst := hk ▸ hnd.1
      have hrw : updList rest pid p = rest := updList_of_not_mem rest pid p hrest
      simp only [updList] at hrw
      simp only [updList, List.map_cons, if_pos hk]
      rw [hrw]
      simp only [List.sum_cons, hq]
      omega
    · have hmem2 : (pid, q) ∈ rest := by
        rcases List.mem_cons.mp hmem with h | h
        · exact absurd (congrArg Prod.fst h.symm) hk
        · exact h
      have := ih pid q p hnd.2 hmem2
      simp only [updList, List.map_cons, if_neg hk, List.map_map, List.sum_cons] at this ⊢
      omega

/-- Characterisation of a successful `handle_page_fault`: either the process
was under budget and the head free frame was consumed, or it was at budget
and one of the two scan victims was cleared and its frame reused. -/
theorem hpf_shape (s : Simulation) (proc : Process) (page : Nat)
    (s2 : Simulation) (p2 : Process)
    (h : s.handle_page_fault proc page = some (s2, p2)) :
    (proc.get_rss < s.flags.max_frames ∧
      ∃ fi rest, s.free_frames = fi :: rest ∧
        s2 = { s with page_faults := s.page_faults + 1,
                      free_frames := s.free_frames.filter (fun x => decide (x ≠ fi)) } ∧
        p2 = { proc with page_faults := proc.page_faults + 1,
                         page_table := proc.page_table.setRow page
                           { present := true, frame := fi,
                             loaded_at := s.time, last_accessed_at := s.time } }) ∨
    (¬ proc.get_rss < s.flags.max_frames ∧
      ∃ v, (v = proc.page_table.get_oldest_page ∨
            v = proc.page_table.get_least_recently_used_page) ∧
        s2 = { s with page_faults := s.page_faults + 1 } ∧
        p2 = { proc with page_faults := proc.page_faults + 1,
                         page_table := (proc.page_table.setRow v
                             { proc.page_table.rowAt v with present := false }).setRow page
                           { present := true, frame := (proc.page_table.rowAt v).frame,
                             loaded_at := s.time, last_accessed_at := s.time } }) := by
  unfold Simulation.handle_page_fault at h
  split at h
  · rename_i hrss
    left
    refine ⟨hrss, ?_⟩
    split at h
    · exact absurd h (by simp)
    · rename_i fi rest hff
      simp only [Option.some.injEq, Prod.mk.injEq] at h
      exact ⟨fi, rest, hff, h.1.symm, h.2.symm⟩
  · rename_i hrss
    right
    refine ⟨hrss, ?_⟩
    split at h
    · simp only [Option.some.injEq, Prod.mk.injEq] at h
      exact ⟨proc.page_table.get_oldest_page, Or.inl rfl, h.1.symm, h.2.symm⟩
    · simp only [Option.some.injEq, Prod.mk.injEq] at h
      exact ⟨proc.page_table.get_least_recently_used_page, Or.inr rfl, h.1.symm, h.2.symm⟩

/-- If some row is present and all present rows carry timestamps below
`INT_MAX`, the scan returns the index of a present row whose `f`-value is
minimal among present rows, and every earlier present row has a strictly
larger `f`-value (lowest-index tie-break). -/
theorem scanMin_correct (f : PageTableRow → Nat) (rs : List PageTableRow)
    (hex : ∃ r ∈ rs, r.present = true)
    (hbd : ∀ r ∈ rs, r.present = true → f r < INT_MAX) :
    ∃ hj : scanMinAux f rs 0 0 INT_MAX < rs.length,
      (rs.get ⟨scanMinAux f rs 0 0 INT_MAX, hj⟩).present = true ∧
      (∀ m (hm : m < rs.length), (rs.get ⟨m, hm⟩).present = true →
        f (rs.get ⟨scanMinAux f rs 0 0 INT_MAX, hj⟩) ≤ f (rs.get ⟨m, hm⟩)) ∧
      (∀ m (hm : m < rs.length), m < scanMinAux f rs 0 0 INT_MAX →
        (rs.get ⟨m, hm⟩).present = true →
        f (rs.get ⟨scanMinAux f rs 0 0 INT_MAX, hj⟩) < f (rs.get ⟨m, hm⟩)) := by
  rcases scanMinAux_spec f rs 0 0 INT_MAX with ⟨heq, hall⟩ |
    ⟨k, hk, heq, hpres, hlt, hmin, hstrict⟩
  · exfalso
    rcases hex with ⟨r, hr, hp⟩
    rcases List.mem_iff_get.mp hr with ⟨n, hget⟩
    have h1 := hall n.1 n.2
    rw [Fin.eta] at h1
    rw [hget] at h1
    exact absurd (h1 hp) (Nat.not_le_of_lt (hbd r hr hp))
  · have hzk : scanMinAux f rs 0 0 INT_MAX = k := by rw [heq]; omega
    subst hzk
    exact ⟨hk, hpres, hmin, fun m hm hmk => hstrict m hm hmk⟩

/-- Claim C1: for every page table with at least one present row (and, as the
machine-integer embedding requires, timestamps below `INT_MAX`), FIFO victim
selection `get_oldest_page` returns the index of a present row with minimal
`loaded_at` among the present rows, lowest index on ties; consequently it
never selects a page whose `loaded_at` exceeds that of another resident page
of the same process. -/
theorem get_oldest_page_min (pt : PageTable)
    (hex : 0 < pt.get_present_page_count)
    (hbd : ∀ r ∈ pt.rows, r.present = true → r.loaded_at < INT_MAX) :
    ∃ hj : pt.get_oldest_page < pt.rows.length,
      (pt.rows.get ⟨pt.get_oldest_page, hj⟩).present = true ∧
      (∀ m (hm : m < pt.rows.length), (pt.rows.get ⟨m, hm⟩).present = true →
        (pt.rows.get ⟨pt.get_oldest_page, hj⟩).loaded_at ≤ (pt.rows.get ⟨m, hm⟩).loaded_at) ∧
      (∀ m (hm : m < pt.rows.length), m < pt.get_oldest_page →
        (pt.rows.get ⟨m, hm⟩).present = true →
        (pt.rows.get ⟨pt.get_oldest_page, hj⟩).loaded_at < (pt.rows.get ⟨m, hm⟩).loaded_at) := by
  have hex2 : ∃ r ∈ pt.rows, r.present = true := by
    have := List.countP_pos (p := fun r : PageTableRow => r.present) (l := pt.rows)
    simpa [PageTable.get_present_page_count] using this.mp hex
  exact scanMin_correct (fun r => r.loaded_at) pt.rows hex2 hbd

/-- Concrete check of C1: in a table whose present rows have load times 5 and
3, the scan picks index 1 (load time 3), which is minimal. -/
theorem get_oldest_page_min_witness :
    ∃ hj : wOldPT.get_oldest_page < wOldPT.rows.length,
      (wOldPT.rows.get ⟨wOldPT.get_oldest_page, hj⟩).present = true ∧
      (∀ m (hm : m < wOldPT.rows.length), (wOldPT.rows.get ⟨m, hm⟩).present = true →
        (wOldPT.rows.get ⟨wOldPT.get_oldest_page, hj⟩).loaded_at ≤ (wOldPT.rows.get ⟨m, hm⟩).loaded_at) ∧
      (∀ m (hm : m < wOldPT.rows.length), m < wOldPT.get_oldest_page →
        (wOldPT.rows.get ⟨m, hm⟩).present = true →
        (wOldPT.rows.get ⟨wOldPT.get_oldest_page, hj⟩).loaded_at < (wOldPT.rows.get ⟨m, hm⟩).loaded_at) :=
  get_oldest_page_min wOldPT (by decide) (by decide)

/-- Claim C2: for every page table with at least one present row (and
timestamps below `INT_MAX`), LRU victim selection
`get_least_recently_used_page` returns the index of a present row with
minimal `last_accessed_at` among the present rows, lowest index on ties;
consequently it never selects a page accessed more recently than another
resident page of the same process. -/
theorem get_least_recently_used_page_min (pt : PageTable)
    (hex : 0 < pt.get_present_page_count)
    (hbd : ∀ r ∈ pt.rows, r.present = true → r.last_accessed_at < INT_MAX) :
    ∃ hj : pt.get_least_recently_used_page < pt.rows.length,
      (pt.rows.get ⟨pt.get_least_recently_used_page, hj⟩).present = true ∧
      (∀ m (hm : m < pt.rows.length), (pt.rows.get ⟨m, hm⟩).present = true →
        (pt.rows.get ⟨pt.get_least_recently_used_page, hj⟩).last_accessed_at ≤
          (pt.rows.get ⟨m, hm⟩).last_accessed_at) ∧
      (∀ m (hm : m < pt.rows.length), m < pt.get_least_recently_used_page →
        (pt.rows.get ⟨m, hm⟩).present = true →
        (pt.rows.get ⟨pt.get_least_recently_used_page, hj⟩).last_accessed_at <
          (pt.rows.get ⟨m, hm⟩).last_accessed_at) := by
  have hex2 : ∃ r ∈ pt.rows, r.present = true := by
    have := List.countP_pos (p := fun r : PageTableRow => r.present) (l := pt.rows)
    simpa [PageTable.get_present_page_count] using this.mp hex
  exact scanMin_correct (fun r => r.last_accessed_at) pt.rows hex2 hbd

/-- Concrete check of C2: with last-access times 9 and 2 on the present rows,
the scan picks index 2 (time 2), which is minimal. -/
theorem get_least_recently_used_page_min_witness :
    ∃ hj : wLruPT.get_least_recently_used_page < wLruPT.rows.length,
      (wLruPT.rows.get ⟨wLruPT.get_least_recently_used_page, hj⟩).present = true ∧
      (∀ m (hm : m < wLruPT.rows.length), (wLruPT.rows.get ⟨m, hm⟩).present = true →
        (wLruPT.rows.get ⟨wLruPT.get_least_recently_used_page, hj⟩).last_accessed_at ≤
          (wLruPT.rows.get ⟨m, hm⟩).last_accessed_at) ∧
      (∀ m (hm : m < wLruPT.rows.length), m < wLruPT.get_least_recently_used_page →
        (wLruPT.rows.get ⟨m, hm⟩).present = true →
        (wLruPT.rows.get ⟨wLruPT.get_least_recently_used_page, hj⟩).last_accessed_at <
          (wLruPT.rows.get ⟨m, hm⟩).last_accessed_at) :=
  get_least_recently_used_page_min wLruPT (by decide) (by decide)

/-- Claim C10: on a page table with no present row (for example right after
process construction) both victim scans return the sentinel index 0
deterministically, because the initial candidate index 0 is never replaced. -/
theorem scans_return_zero_on_empty (pt : PageTable)
    (h : ∀ r ∈ pt.rows, r.present = false) :
    pt.get_oldest_page = 0 ∧ pt.get_least_recently_used_page = 0 := by
  constructor
  · exact scanMinAux_of_none (fun r => r.loaded_at) pt.rows 0 0 INT_MAX
      (fun r hr hc => by rw [h r hr] at hc; exact Bool.false_ne_true hc.2)
  · exact scanMinAux_of_none (fun r => r.last_accessed_at) pt.rows 0 0 INT_MAX
      (fun r hr hc => by rw [h r hr] at hc; exact Bool.false_ne_true hc.2)

/-- Concrete check of C10 on a freshly constructed three-page table. -/
theorem scans_return_zero_on_empty_witness :
    wEmptyPT.get_oldest_page = 0 ∧ wEmptyPT.get_least_recently_used_page = 0 :=
  scans_return_zero_on_empty wEmptyPT (by decide)

theorem rowAt_mem (pt : PageTable) (i : Nat) (hi : i < pt.rows.length) :
    pt.rowAt i ∈ pt.rows := by
  simp only [PageTable.rowAt]
  rw [List.getD_eq_get pt.rows blankRow hi]
  exact List.get_mem pt.rows i hi

theorem rowAt_default (pt : PageTable) (i : Nat) (hi : ¬ i < pt.rows.length) :
    pt.rowAt i = blankRow := by
  simp only [PageTable.rowAt]
  exact List.getD_eq_default pt.rows blankRow (Nat.le_of_not_lt hi)

theorem rowAt_setRow_ne (pt : PageTable) (i j : Nat) (r : PageTableRow)
    (h : i ≠ j) : (pt.setRow i r).rowAt j = pt.rowAt j :=
  getD_set_ne blankRow pt.rows i j r h

theorem length_setRow (pt : PageTable) (i : Nat) (r : PageTableRow) :
    (pt.setRow i r).rows.length = pt.rows.length := by
  simp [PageTable.setRow]

theorem rss_setRow_eq (pt : PageTable) (i : Nat) (r : PageTableRow)
    (hi : i < pt.rows.length) (hpr : r.present = (pt.rowAt i).present) :
    (pt.setRow i r).get_present_page_count = pt.get_present_page_count := by
  have key := countP_set_getD (fun rr : PageTableRow => rr.present) blankRow pt.rows i r hi
  simp only [PageTable.get_present_page_count, PageTable.setRow] at key ⊢
  simp only [PageTable.rowAt] at hpr
  simp only [hpr] at key
  exact Nat.add_right_cancel key

theorem rss_setRow_fresh (pt : PageTable) (i : Nat) (r : PageTableRow)
    (hi : i < pt.rows.length) (hold : (pt.rowAt i).present = false)
    (hnew : r.present = true) :
    (pt.setRow i r).get_present_page_count = pt.get_present_page_count + 1 := by
  have key := countP_set_getD (fun rr : PageTableRow => rr.present) blankRow pt.rows i r hi
  simp only [PageTable.rowAt] at hold
  simp only [PageTable.get_present_page_count, PageTable.setRow] at key ⊢
  simp only [hold, hnew] at key
  simp at key
  omega

theorem rss_setRow_clear (pt : PageTable) (i : Nat) (r : PageTableRow)
    (hi : i < pt.rows.length) (hold : (pt.rowAt i).present = true)
    (hnew : r.present = false) :
    (pt.setRow i r).get_present_page_count + 1 = pt.get_present_page_count := by
  have key := countP_set_getD (fun rr : PageTableRow => rr.present) blankRow pt.rows i r hi
  simp only [PageTable.rowAt] at hold
  simp only [PageTable.get_present_page_count, PageTable.setRow] at key ⊢
  simp only [hold, hnew] at key
  simp at key
  omega

theorem rowAt_props (pt : PageTable) (time0 : Nat) (i : Nat)
    (hrows : ∀ r ∈ pt.rows,
      r.loaded_at ≤ r.last_accessed_at ∧ (r.present = true → r.last_accessed_at < time0)) :
    (pt.rowAt i).loaded_at ≤ (pt.rowAt i).last_accessed_at ∧
    ((pt.rowAt i).present = true → (pt.rowAt i).last_accessed_at < time0) := by
  by_cases hi : i < pt.rows.length
  · exact hrows _ (rowAt_mem pt i hi)
  · rw [rowAt_default pt i hi]
    exact ⟨Nat.le_refl 0, fun hp => absurd hp (by simp [blankRow])⟩

/-- A present row exists in any table with positive present count; together
with timestamp bounds this lets the scan find a genuine victim. -/
theorem victim_valid (pt : PageTable) (v : Nat)
    (hv : v = pt.get_oldest_page ∨ v = pt.get_least_recently_used_page)
    (hcnt : 0 < pt.get_present_page_count)
    (hbd : ∀ r ∈ pt.rows, r.present = true →
      r.loaded_at < INT_MAX ∧ r.last_accessed_at < INT_MAX) :
    v < pt.rows.length ∧ (pt.rowAt v).present = true := by
  have hex : ∃ r ∈ pt.rows, r.present = true := by
    have := List.countP_pos_iff (p := fun r : PageTableRow => r.present) (l := pt.rows)
    simpa [PageTable.get_present_page_count] using this.mp hcnt
  rcases hv with rfl | rfl
  · obtain ⟨hj, hp, _, _⟩ :=
      scanMin_correct (fun r => r.loaded_at) pt.rows hex (fun r hr hpr => (hbd r hr hpr).1)
    refine ⟨hj, ?_⟩
    rw [show PageTable.rowAt pt pt.get_oldest_page = pt.rows.get ⟨_, hj⟩ from ?_]
    · exact hp
    · simp only [PageTable.rowAt]
      exact List.getD_eq_get pt.rows blankRow hj
  · obtain ⟨hj, hp, _, _⟩ :=
      scanMin_correct (fun r => r.last_accessed_at) pt.rows hex (fun r hr hpr => (hbd r hr hpr).2)
    refine ⟨hj, ?_⟩
    rw [show PageTable.rowAt pt pt.get_least_recently_used_page = pt.rows.get ⟨_, hj⟩ from ?_]
    · exact hp
    · simp only [PageTable.rowAt]
      exact List.getD_eq_get pt.rows blankRow hj

theorem filter_ne_head (fi : Nat) (rest : List Nat) (hnd : (fi :: rest).Nodup) :
    (fi :: rest).filter (fun x => decide (x ≠ fi)) = rest := by
  rw [List.filter_cons]
  simp only [decide_not, ne_eq, decide_True, Bool.not_true, decide_eq_true_eq]
  rw [if_neg (by simp)]
  apply List.filter_eq_self.mpr
  intro a ha
  have : a ≠ fi := by
    intro hcon
    exact (List.nodup_cons.mp hnd).1 (hcon ▸ ha)
  simp [this]

theorem updateProcess_processes (s : Simulation) (pid : Nat) (p : Process) :
    (s.updateProcess pid p).processes = updList s.processes pid p := rfl

theorem updateProcess_free (s : Simulation) (pid : Nat) (p : Process) :
    (s.updateProcess pid p).free_frames = s.free_frames := rfl


/-- Structural characterisation of one access: whenever
`perform_memory_access` yields a surviving state (`ok` or `segfault`), the
lookup found the addressed process (whose access counter is bumped into
`bproc`), and the state after the access has one of four shapes: invalid
page (only the access counter bumped), hit (only `last_accessed_at`
refreshed), under-budget fault (head free frame consumed), or eviction
fault (a scan victim cleared and its frame reused). -/
theorem step_shape (s : Simulation) (va : VirtualAddress) (s2 : Simulation)
    (h : s.perform_memory_access va = StepResult.ok s2 ∨
      ∃ fr, s.perform_memory_access va = StepResult.segfault s2 fr) :
    ∃ pr0 bproc,
      s.processes.find? (fun pr => decide (pr.1 = va.process_id)) = some pr0 ∧
      pr0.1 = va.process_id ∧
      bproc.page_table = pr0.2.page_table ∧
      bproc.pages = pr0.2.pages ∧
      bproc.memory_accesses = pr0.2.memory_accesses + 1 ∧
      bproc.page_faults = pr0.2.page_faults ∧
      s2.time = s.time ∧
      s2.flags = s.flags ∧
      ((bproc.is_valid_page va.page = false ∧
         s2.processes = updList s.processes va.process_id bproc ∧
         s2.free_frames = s.free_frames ∧
         s2.page_faults = s.page_faults) ∨
       (bproc.is_valid_page va.page = true ∧
         (bproc.page_table.rowAt va.page).present = true ∧
         (∃ p2 : Process,
           p2.page_table = bproc.page_table.setRow va.page
             { bproc.page_table.rowAt va.page with last_accessed_at := s.time } ∧
           p2.pages = bproc.pages ∧
           p2.memory_accesses = bproc.memory_accesses ∧
           p2.page_faults = bproc.page_faults ∧
           s2.processes = updList s.processes va.process_id p2) ∧
         s2.free_frames = s.free_frames ∧
         s2.page_faults = s.page_faults) ∨
       (bproc.is_valid_page va.page = true ∧
         (bproc.page_table.rowAt va.page).present = false ∧
         bproc.get_rss < s.flags.max_frames ∧
         (∃ fi rest, s.free_frames = fi :: rest ∧
           s2.free_frames = s.free_frames.filter (fun x => decide (x ≠ fi)) ∧
           ∃ p2 : Process,
             p2.page_table = bproc.page_table.setRow va.page
               { present := true, frame := fi, loaded_at := s.time,
                 last_accessed_at := s.time } ∧
             p2.pages = bproc.pages ∧
             p2.memory_accesses = bproc.memory_accesses ∧
             p2.page_faults = bproc.page_faults + 1 ∧
             s2.processes = updList s.processes va.process_id p2) ∧
         s2.page_faults = s.page_faults + 1) ∨
       (bproc.is_valid_page va.page = true ∧
         (bproc.page_table.rowAt va.page).present = false ∧
         ¬ bproc.get_rss < s.flags.max_frames ∧
         (∃ v, (v = bproc.page_table.get_oldest_page ∨
               v = bproc.page_table.get_least_recently_used_page) ∧
           ∃ p2 : Process,
             p2.page_table = (bproc.page_table.setRow v
                 { bproc.page_table.rowAt v with present := false }).setRow va.page
               { present := true, frame := (bproc.page_table.rowAt v).frame,
                 loaded_at := s.time, last_accessed_at := s.time } ∧
             p2.pages = bproc.pages ∧
             p2.memory_accesses = bproc.memory_accesses ∧
             p2.page_faults = bproc.page_faults + 1 ∧
             s2.processes = updList s.processes va.process_id p2) ∧
         s2.free_frames = s.free_frames ∧
         s2.page_faults = s.page_faults + 1)) := by
  rcases hfind : s.processes.find? (fun pr => decide (pr.1 = va.process_id)) with _ | pr0
  · exfalso
    rcases h with h | ⟨fr, h⟩ <;>
      simp only [Simulation.perform_memory_access, Simulation.lookupProcess, hfind,
        Option.map_none'] at h <;>
      exact StepResult.noConfusion h
  · have hp := List.find?_some hfind
    have hpid : pr0.1 = va.process_id := of_decide_eq_true hp
    refine ⟨pr0, { pr0.2 with memory_accesses := pr0.2.memory_accesses + 1 }, hfind, hpid,
      rfl, rfl, rfl, rfl, ?_⟩
    rcases h with h | ⟨fr, h⟩ <;>
      simp only [Simulation.perform_memory_access, Simulation.lookupProcess, hfind,
        Option.map_some'] at h
    · split at h
      · exact StepResult.noConfusion h
      · split at h
        · split at h
          · exact StepResult.noConfusion h
          · rename_i hvp hpres hoff
            simp only [StepResult.ok.injEq] at h
            subst h
            refine ⟨rfl, rfl, ?_⟩
            right; left
            exact ⟨by simpa using hvp, hpres,
              ⟨{ pr0.2 with
                  memory_accesses := pr0.2.memory_accesses + 1,
                  page_table := pr0.2.page_table.setRow va.page
                    { pr0.2.page_table.rowAt va.page with
                      last_accessed_at := s.time } },
                rfl, rfl, rfl, rfl, rfl⟩, rfl, rfl⟩
        · rename_i hvp hpres
          split at h
          · exact StepResult.noConfusion h
          · rename_i s3 p3 hfp
            split at h
            · exact StepResult.noConfusion h
            · simp only [StepResult.ok.injEq] at h
              subst h
              rcases hpf_shape s _ va.page s3 p3 hfp with
                ⟨hrss, fi, rest, hff, hs3, hp3⟩ | ⟨hrss, v, hv, hs3, hp3⟩
              · subst hs3
                refine ⟨rfl, rfl, ?_⟩
                right; right; left
                refine ⟨by simpa using hvp, by simpa using hpres, hrss,
                  ⟨fi, rest, hff, rfl, p3, by rw [hp3], by rw [hp3],
                    by rw [hp3], by rw [hp3], rfl⟩, rfl⟩
              · subst hs3
                refine ⟨rfl, rfl, ?_⟩
                right; right; right
                refine ⟨by simpa using hvp, by simpa using hpres, hrss,
                  ⟨v, hv, p3, by rw [hp3], by rw [hp3], by rw [hp3], by rw [hp3],
                    rfl⟩, rfl, rfl⟩
    · split at h
      · rename_i hvp
        simp only [StepResult.segfault.injEq] at h
        rcases h with ⟨h, _⟩
        subst h
        refine ⟨rfl, rfl, ?_⟩
        left
        exact ⟨by simpa using hvp, rfl, rfl, rfl⟩
      · split at h
        · split at h
          · rename_i hvp hpres hoff
            simp only [StepResult.segfault.injEq] at h
            rcases h with ⟨h, _⟩
            subst h
            refine ⟨rfl, rfl, ?_⟩
            right; left
            exact ⟨by simpa using hvp, hpres,
              ⟨{ pr0.2 with
                  memory_accesses := pr0.2.memory_accesses + 1,
                  page_table := pr0.2.page_table.setRow va.page
                    { pr0.2.page_table.rowAt va.page with
                      last_accessed_at := s.time } },
                rfl, rfl, rfl, rfl, rfl⟩, rfl, rfl⟩
          · exact StepResult.noConfusion h
        · rename_i hvp hpres
          split at h
          · exact StepResult.noConfusion h
          · rename_i s3 p3 hfp
            split at h
            · simp only [StepResult.segfault.injEq] at h
              rcases h with ⟨h, _⟩
              subst h
              rcases hpf_shape s _ va.page s3 p3 hfp with
                ⟨hrss, fi, rest, hff, hs3, hp3⟩ | ⟨hrss, v, hv, hs3, hp3⟩
              · subst hs3
                refine ⟨rfl, rfl, ?_⟩
                right; right; left
                refine ⟨by simpa using hvp, by simpa using hpres, hrss,
                  ⟨fi, rest, hff, rfl, p3, by rw [hp3], by rw [hp3],
                    by rw [hp3], by rw [hp3], rfl⟩, rfl⟩
              · subst hs3
                refine ⟨rfl, rfl, ?_⟩
                right; right; right
                refine ⟨by simpa using hvp, by simpa using hpres, hrss,
                  ⟨v, hv, p3, by rw [hp3], by rw [hp3], by rw [hp3], by rw [hp3],
                    rfl⟩, rfl, rfl⟩
            · exact StepResult.noConfusion h

theorem mem_setRow_cases (pt : PageTable) (i : Nat) (row x : PageTableRow)
    (hx : x ∈ (pt.setRow i row).rows) : x = row ∨ x ∈ pt.rows :=
  mem_set_cases pt.rows i row x hx

/-- One access preserves the per-row temporal invariant: the clock is
unchanged by the access itself and afterwards every row still satisfies
`loaded_at ≤ last_accessed_at`, with present rows last touched no later than
the current clock. -/
theorem step_rows (s : Simulation) (va : VirtualAddress) (s2 : Simulation)
    (hT : TimeInv s)
    (h : s.perform_memory_access va = StepResult.ok s2 ∨
      ∃ fr, s.perform_memory_access va = StepResult.segfault s2 fr) :
    s2.time = s.time ∧ s2.flags = s.flags ∧
    ∀ pr ∈ s2.processes, ∀ r ∈ pr.2.page_table.rows,
      r.loaded_at ≤ r.last_accessed_at ∧ (r.present = true → r.last_accessed_at ≤ s.time) := by
  obtain ⟨pr0, bproc, hfind, hpid, hbpt, hbpg, hbma, hbpf, htime, hflags, hshape⟩ :=
    step_shape s va s2 h
  have hmem0 : pr0 ∈ s.processes := List.mem_of_find?_eq_some hfind
  have hrows0 : ∀ r ∈ pr0.2.page_table.rows,
      r.loaded_at ≤ r.last_accessed_at ∧ (r.present = true → r.last_accessed_at < s.time) :=
    hT pr0 hmem0
  have hrowsb : ∀ r ∈ bproc.page_table.rows,
      r.loaded_at ≤ r.last_accessed_at ∧ (r.present = true → r.last_accessed_at < s.time) := by
    rw [hbpt]; exact hrows0
  have hold : ∀ pr ∈ s.processes, ∀ r ∈ pr.2.page_table.rows,
      r.loaded_at ≤ r.last_accessed_at ∧ (r.present = true → r.last_accessed_at ≤ s.time) :=
    fun pr hpr r hr => ⟨(hT pr hpr r hr).1, fun hp => Nat.le_of_lt ((hT pr hpr r hr).2 hp)⟩
  refine ⟨htime, hflags, ?_⟩
  rcases hshape with ⟨hvp, hprocs, hfree, hpf⟩ |
    ⟨hvp, hpres, ⟨p2, hp2pt, hp2pg, hp2ma, hp2pf, hprocs⟩, hfree, hpf⟩ |
    ⟨hvp, hpres, hrss, ⟨fi, rest, hff, hfree, p2, hp2pt, hp2pg, hp2ma, hp2pf, hprocs⟩, hpf⟩ |
    ⟨hvp, hpres, hrss, ⟨v, hv, p2, hp2pt, hp2pg, hp2ma, hp2pf, hprocs⟩, hfree, hpf⟩
  · intro pr hpr
    rw [hprocs] at hpr
    rcases mem_updList _ _ _ pr hpr with rfl | hpr2
    · intro r hr
      have hr2 : r ∈ bproc.page_table.rows := hr
      rw [hbpt] at hr2
      exact hold pr0 hmem0 r hr2
    · exact hold pr hpr2
  · intro pr hpr
    rw [hprocs] at hpr
    rcases mem_updList _ _ _ pr hpr with rfl | hpr2
    · intro r hr
      have hr2 : r ∈ p2.page_table.rows := hr
      rw [hp2pt] at hr2
      rcases mem_setRow_cases _ _ _ _ hr2 with rfl | hr3
      · have hprops := rowAt_props bproc.page_table s.time va.page hrowsb
        refine ⟨?_, fun _ => Nat.le_refl _⟩
        exact Nat.le_of_lt (Nat.lt_of_le_of_lt hprops.1 (hprops.2 hpres))
      · rw [hbpt] at hr3
        exact hold pr0 hmem0 r hr3
    · exact hold pr hpr2
  · intro pr hpr
    rw [hprocs] at hpr
    rcases mem_updList _ _ _ pr hpr with rfl | hpr2
    · intro r hr
      have hr2 : r ∈ p2.page_table.rows := hr
      rw [hp2pt] at hr2
      rcases mem_setRow_cases _ _ _ _ hr2 with rfl | hr3
      · exact ⟨Nat.le_refl _, fun _ => Nat.le_refl _⟩
      · rw [hbpt] at hr3
        exact hold pr0 hmem0 r hr3
    · exact hold pr hpr2
  · intro pr hpr
    rw [hprocs] at hpr
    rcases mem_updList _ _ _ pr hpr with rfl | hpr2
    · intro r hr
      have hr2 : r ∈ p2.page_table.rows := hr
      rw [hp2pt] at hr2
      rcases mem_setRow_cases _ _ _ _ hr2 with rfl | hr3
      · exact ⟨Nat.le_refl _, fun _ => Nat.le_refl _⟩
      · rcases mem_setRow_cases _ _ _ _ hr3 with rfl | hr4
        · have hprops := rowAt_props bproc.page_table s.time v hrowsb
          exact ⟨hprops.1, fun hp => absurd hp (by simp)⟩
        · rw [hbpt] at hr4
          exact hold pr0 hmem0 r hr4
    · exact hold pr hpr2

/-- One access preserves the budget, frame-conservation and uniqueness
invariants, provided the frame budget is positive and the clock has not
passed the `INT_MAX` sentinel. -/
theorem step_post (s : Simulation) (va : VirtualAddress) (s2 : Simulation)
    (hT : TimeInv s) (hB : BudgetInv s) (hK : KeysNodup s) (hF : FreeNodup s)
    (hM : 1 ≤ s.flags.max_frames) (ht : s.time ≤ INT_MAX)
    (h : s.perform_memory_access va = StepResult.ok s2 ∨
      ∃ fr, s.perform_memory_access va = StepResult.segfault s2 fr) :
    s2.processes.map Prod.fst = s.processes.map Prod.fst ∧
    s2.free_frames.Nodup ∧
    (∀ pr ∈ s2.processes, pr.2.get_rss ≤ s.flags.max_frames) ∧
    (s2.processes.map (fun pr => pr.2.get_rss)).sum + s2.free_frames.length =
      (s.processes.map (fun pr => pr.2.get_rss)).sum + s.free_frames.length := by
  obtain ⟨pr0, bproc, hfind, hpid, hbpt, hbpg, hbma, hbpf, htime, hflags, hshape⟩ :=
    step_shape s va s2 h
  have hmem0 : pr0 ∈ s.processes := List.mem_of_find?_eq_some hfind
  have hmempair : (va.process_id, pr0.2) ∈ s.processes := by
    have heta : (pr0.1, pr0.2) = pr0 := rfl
    rw [← hpid, heta]
    exact hmem0
  have hrssb : bproc.get_rss = pr0.2.get_rss := by
    simp [Process.get_rss, hbpt]
  have hb0 : pr0.2.get_rss ≤ s.flags.max_frames := hB pr0 hmem0
  rcases hshape with ⟨hvp, hprocs, hfree, hpf⟩ |
    ⟨hvp, hpres, ⟨p2, hp2pt, hp2pg, hp2ma, hp2pf, hprocs⟩, hfree, hpf⟩ |
    ⟨hvp, hpres, hrss, ⟨fi, rest, hff, hfree, p2, hp2pt, hp2pg, hp2ma, hp2pf, hprocs⟩, hpf⟩ |
    ⟨hvp, hpres, hrss, ⟨v, hv, p2, hp2pt, hp2pg, hp2ma, hp2pf, hprocs⟩, hfree, hpf⟩
  · have hsum := sum_updList Process.get_rss s.processes va.process_id pr0.2 bproc hK hmempair
    refine ⟨by rw [hprocs]; exact updList_map_fst _ _ _, by rw [hfree]; exact hF, ?_, ?_⟩
    · intro pr hpr
      rw [hprocs] at hpr
      rcases mem_updList _ _ _ pr hpr with rfl | hpr2
      · have : bproc.get_rss ≤ s.flags.max_frames := by omega
        exact this
      · exact hB pr hpr2
    · rw [hprocs, hfree]
      omega
  · have hpage : va.page < bproc.page_table.rows.length := by
      simpa [Process.is_valid_page] using hvp
    have hr2 : p2.get_rss = bproc.get_rss := by
      have key := rss_setRow_eq bproc.page_table va.page
        { bproc.page_table.rowAt va.page with last_accessed_at := s.time } hpage rfl
      simp only [Process.get_rss, hp2pt]
      exact key
    have hsum := sum_updList Process.get_rss s.processes va.process_id pr0.2 p2 hK hmempair
    refine ⟨by rw [hprocs]; exact updList_map_fst _ _ _, by rw [hfree]; exact hF, ?_, ?_⟩
    · intro pr hpr
      rw [hprocs] at hpr
      rcases mem_updList _ _ _ pr hpr with rfl | hpr2
      · have : p2.get_rss ≤ s.flags.max_frames := by omega
        exact this
      · exact hB pr hpr2
    · rw [hprocs, hfree]
      omega
  · have hpage : va.page < bproc.page_table.rows.length := by
      simpa [Process.is_valid_page] using hvp
    have hr2 : p2.get_rss = bproc.get_rss + 1 := by
      have key := rss_setRow_fresh bproc.page_table va.page
        { present := true, frame := fi, loaded_at := s.time, last_accessed_at := s.time }
        hpage hpres rfl
      simp only [Process.get_rss, hp2pt]
      exact key
    have hF2 : s.free_frames.Nodup := hF
    rw [hff] at hF2
    have hfilter : s.free_frames.filter (fun x => decide (x ≠ fi)) = rest := by
      rw [hff]
      exact filter_ne_head fi rest hF2
    have hlen : s.free_frames.length = rest.length + 1 := by
      rw [hff]; rfl
    have hsum := sum_updList Process.get_rss s.processes va.process_id pr0.2 p2 hK hmempair
    refine ⟨by rw [hprocs]; exact updList_map_fst _ _ _, ?_, ?_, ?_⟩
    · rw [hfree, hfilter]
      exact (List.nodup_cons.mp hF2).2
    · intro pr hpr
      rw [hprocs] at hpr
      rcases mem_updList _ _ _ pr hpr with rfl | hpr2
      · have : p2.get_rss ≤ s.flags.max_frames := by omega
        exact this
      · exact hB pr hpr2
    · rw [hprocs, hfree, hfilter]
      omega
  · have hpage : va.page < bproc.page_table.rows.length := by
      simpa [Process.is_valid_page] using hvp
    have h1 : 1 ≤ bproc.get_rss := by omega
    have hcnt : 0 < bproc.page_table.get_present_page_count := h1
    have hrowsb : ∀ r ∈ bproc.page_table.rows,
        r.loaded_at ≤ r.last_accessed_at ∧ (r.present = true → r.last_accessed_at < s.time) := by
      rw [hbpt]; exact hT pr0 hmem0
    have hbd : ∀ r ∈ bproc.page_table.rows, r.present = true →
        r.loaded_at < INT_MAX ∧ r.last_accessed_at < INT_MAX := by
      intro r hr hp
      have hprops := hrowsb r hr
      have hlast : r.last_accessed_at < INT_MAX :=
        Nat.lt_of_lt_of_le (hprops.2 hp) ht
      exact ⟨Nat.lt_of_le_of_lt hprops.1 hlast, hlast⟩
    obtain ⟨hvlen, hvpres⟩ := victim_valid bproc.page_table v hv hcnt hbd
    have hne : v ≠ va.page := by
      intro heq
      rw [heq] at hvpres
      rw [hvpres] at hpres
      exact absurd hpres (by simp)
    have hr2 : p2.get_rss = bproc.get_rss := by
      have key : ((bproc.page_table.setRow v
          { bproc.page_table.rowAt v with present := false }).setRow va.page
            { present := true, frame := (bproc.page_table.rowAt v).frame,
              loaded_at := s.time, last_accessed_at := s.time }).get_present_page_count =
          bproc.page_table.get_present_page_count := by
        have hclear := rss_setRow_clear bproc.page_table v
          { bproc.page_table.rowAt v with present := false } hvlen hvpres rfl
        have hfresh := rss_setRow_fresh
          (bproc.page_table.setRow v { bproc.page_table.rowAt v with present := false })
          va.page
          { present := true, frame := (bproc.page_table.rowAt v).frame,
            loaded_at := s.time, last_accessed_at := s.time }
          (by rw [length_setRow]; exact hpage)
          (by rw [rowAt_setRow_ne _ _ _ _ hne]; exact hpres)
          rfl
        omega
      simp only [Process.get_rss, hp2pt]
      exact key
    have hsum := sum_updList Process.get_rss s.processes va.process_id pr0.2 p2 hK hmempair
    refine ⟨by rw [hprocs]; exact updList_map_fst _ _ _, by rw [hfree]; exact hF, ?_, ?_⟩
    · intro pr hpr
      rw [hprocs] at hpr
      rcases mem_updList _ _ _ pr hpr with rfl | hpr2
      · have : p2.get_rss ≤ s.flags.max_frames := by omega
        exact this
      · exact hB pr hpr2
    · rw [hprocs, hfree]
      omega

/-- Running a prefix from a temporally well-formed state keeps every row
temporally well-formed. -/
theorem runPrefix_rows (t : List VirtualAddress) :
    ∀ (s s2 : Simulation), TimeInv s → runPrefix s t = some s2 →
      ∀ pr ∈ s2.processes, ∀ r ∈ pr.2.page_table.rows,
        r.loaded_at ≤ r.last_accessed_at := by
  induction t with
  | nil =>
    intro s s2 hT hrun
    simp only [runPrefix, Option.some.injEq] at hrun
    subst hrun
    exact fun pr hpr r hr => (hT pr hpr r hr).1
  | cons va rest ih =>
    intro s s2 hT hrun
    simp only [runPrefix] at hrun
    rcases hstep : s.perform_memory_access va with s3 | ⟨s3, fr⟩ | _
    · rw [hstep] at hrun
      obtain ⟨htime, hflags, hrows⟩ := step_rows s va s3 hT (Or.inl hstep)
      have hT3 : TimeInv { s3 with time := s3.time + 1 } := by
        intro pr hpr r hr
        have := hrows pr hpr r hr
        refine ⟨this.1, fun hp => ?_⟩
        have h2 := this.2 hp
        simp only
        omega
      exact ih { s3 with time := s3.time + 1 } s2 hT3 hrun
    · rw [hstep] at hrun
      rcases rest with _ | ⟨vb, rest2⟩
      · simp only [List.isEmpty_nil, if_pos, Option.some.injEq] at hrun
        subst hrun
        obtain ⟨htime, hflags, hrows⟩ := step_rows s va s3 hT (Or.inr ⟨fr, hstep⟩)
        exact fun pr hpr r hr => (hrows pr hpr r hr).1
      · simp only [List.isEmpty_cons, if_neg] at hrun
        exact absurd hrun (by simp)
    · rw [hstep] at hrun
      exact absurd hrun (by simp)

/-- Running a prefix from a fully invariant-respecting state (with a
positive budget and enough clock headroom) keeps the budget and
frame-conservation invariants. -/
theorem runPrefix_post (t : List VirtualAddress) :
    ∀ (s s2 : Simulation),
      TimeInv s → BudgetInv s → KeysNodup s → FreeNodup s → FramesInv s →
      1 ≤ s.flags.max_frames → s.time + t.length ≤ INT_MAX →
      runPrefix s t = some s2 →
      BudgetInv s2 ∧ FramesInv s2 := by
  induction t with
  | nil =>
    intro s s2 hT hB hK hF hFr hM hbud hrun
    simp only [runPrefix, Option.some.injEq] at hrun
    subst hrun
    exact ⟨hB, hFr⟩
  | cons va rest ih =>
    intro s s2 hT hB hK hF hFr hM hbud hrun
    simp only [runPrefix] at hrun
    have ht : s.time ≤ INT_MAX := by
      simp only [List.length_cons] at hbud
      omega
    rcases hstep : s.perform_memory_access va with s3 | ⟨s3, fr⟩ | _
    · rw [hstep] at hrun
      obtain ⟨htime, hflags, hrows⟩ := step_rows s va s3 hT (Or.inl hstep)
      obtain ⟨hkeys, hfnd, hbud3, hsum3⟩ :=
        step_post s va s3 hT hB hK hF hM ht (Or.inl hstep)
      have hT3 : TimeInv { s3 with time := s3.time + 1 } := by
        intro pr hpr r hr
        have := hrows pr hpr r hr
        refine ⟨this.1, fun hp => ?_⟩
        have h2 := this.2 hp
        simp only
        omega
      have hB3 : BudgetInv { s3 with time := s3.time + 1 } := by
        intro pr hpr
        have hb := hbud3 pr hpr
        have : ({ s3 with time := s3.time + 1 } : Simulation).flags = s.flags := hflags
        rw [this]
        exact hb
      have hK3 : KeysNodup { s3 with time := s3.time + 1 } := by
        have : ({ s3 with time := s3.time + 1 } : Simulation).processes.map Prod.fst =
            s.processes.map Prod.fst := hkeys
        rw [KeysNodup, this]
        exact hK
      have hFr3 : FramesInv { s3 with time := s3.time + 1 } := by
        rw [FramesInv]
        simp only
        omega
      have hM3 : 1 ≤ ({ s3 with time := s3.time + 1 } : Simulation).flags.max_frames := by
        have : ({ s3 with time := s3.time + 1 } : Simulation).flags = s.flags := hflags
        rw [this]
        exact hM
      have hbud3t : ({ s3 with time := s3.time + 1 } : Simulation).time + rest.length ≤
          INT_MAX := by
        simp only [List.length_cons] at hbud
        simp only
        omega
      exact ih { s3 with time := s3.time + 1 } s2 hT3 hB3 hK3 hfnd hFr3 hM3 hbud3t hrun
    · rw [hstep] at hrun
      rcases rest with _ | ⟨vb, rest2⟩
      · simp only [List.isEmpty_nil, if_pos, Option.some.injEq] at hrun
        subst hrun
        obtain ⟨htime, hflags, hrows⟩ := step_rows s va s3 hT (Or.inr ⟨fr, hstep⟩)
        obtain ⟨hkeys, hfnd, hbud2, hsum2⟩ :=
          step_post s va s3 hT hB hK hF hM ht (Or.inr ⟨fr, hstep⟩)
        constructor
        · intro pr hpr
          rw [hflags]
          exact hbud2 pr hpr
        · rw [FramesInv]
          omega
      · simp only [List.isEmpty_cons, if_neg] at hrun
        exact absurd hrun (by simp)
    · rw [hstep] at hrun
      exact absurd hrun (by simp)

/-- An initialised simulation satisfies every invariant. -/
theorem initial_invs (s : Simulation) (hinit : InitialSim s) :
    TimeInv s ∧ BudgetInv s ∧ KeysNodup s ∧ FreeNodup s ∧ FramesInv s := by
  obtain ⟨ht0, hfree, hnd, hrows⟩ := hinit
  have hrss0 : ∀ pr ∈ s.processes, pr.2.get_rss = 0 := by
    intro pr hpr
    simp only [Process.get_rss, PageTable.get_present_page_count]
    rw [List.countP_eq_zero]
    intro r hr
    rw [hrows pr hpr r hr]
    simp [blankRow]
  refine ⟨?_, ?_, hnd, ?_, ?_⟩
  · intro pr hpr r hr
    rw [hrows pr hpr r hr]
    exact ⟨Nat.le_refl 0, fun hp => by simp [blankRow] at hp⟩
  · intro pr hpr
    rw [hrss0 pr hpr]
    exact Nat.zero_le _
  · rw [FreeNodup, hfree]
    exact List.nodup_range NUM_FRAMES
  · rw [FramesInv, hfree, List.length_range]
    have : (s.processes.map (fun pr => pr.2.get_rss)).sum = 0 := by
      apply List.sum_eq_zero
      intro x hx
      rcases List.mem_map.mp hx with ⟨pr, hpr, hx2⟩
      rw [← hx2]
      exact hrss0 pr hpr
    rw [this]
    omega

/-- Claim C3 (amended: the frame budget must be positive, and — as the
machine-integer embedding requires — the trace may hold at most `INT_MAX`
accesses): starting from an initialised simulation, every process's
resident-set size (`get_rss`, the present-row count) is at most the
configured `max_frames` after every fully processed trace prefix. -/
theorem rss_within_budget (s s2 : Simulation) (t : List VirtualAddress)
    (hinit : InitialSim s) (hM : 1 ≤ s.flags.max_frames)
    (hbud : t.length ≤ INT_MAX) (hrun : runPrefix s t = some s2) :
    ∀ pr ∈ s2.processes, pr.2.get_rss ≤ s2.flags.max_frames := by
  obtain ⟨hT, hB, hK, hF, hFr⟩ := initial_invs s hinit
  have hbud2 : s.time + t.length ≤ INT_MAX := by
    rw [hinit.1]
    simpa using hbud
  exact (runPrefix_post t s s2 hT hB hK hF hFr hM hbud2 hrun).1

set_option maxRecDepth 100000

/-- Concrete check of C3: a two-page process under a one-frame budget keeps
its resident set within the budget along a three-access trace. -/
theorem rss_within_budget_witness :
    ((((runPrefix wSim wTrace).getD wSim).lookupProcess 0).getD
        (freshProcess 0 [])).get_rss ≤
      ((runPrefix wSim wTrace).getD wSim).flags.max_frames := by
  have hsome : runPrefix wSim wTrace = some ((runPrefix wSim wTrace).getD wSim) := by decide
  have hall := rss_within_budget wSim ((runPrefix wSim wTrace).getD wSim) wTrace
    (by decide) (by decide) (by decide) hsome
  exact hall (0, (((runPrefix wSim wTrace).getD wSim).lookupProcess 0).getD
    (freshProcess 0 [])) (by decide)

/-- Counterexample to C3 as stated: with `max_frames = 0` the eviction path
clears the (non-present) sentinel row 0 and still loads the faulting page,
so after one access the resident-set size exceeds the configured budget. -/
theorem rss_exceeds_budget_with_zero_max_frames :
    ¬ (∀ (s s2 : Simulation) (t : List VirtualAddress),
        InitialSim s → t.length ≤ INT_MAX → runPrefix s t = some s2 →
        ∀ pr ∈ s2.processes, pr.2.get_rss ≤ s2.flags.max_frames) := by
  intro hclaim
  have hsome : runPrefix cSim cTrace = some ((runPrefix cSim cTrace).getD cSim) := by decide
  have hres := hclaim cSim _ cTrace (by decide) (by decide) hsome
  exact absurd hres (by decide)

/-- Claim C4 (amended: the frame budget must be positive, and the trace may
hold at most `INT_MAX` accesses): the free pool starts as the `NUM_FRAMES`
identifiers `0..NUM_FRAMES-1`, and after every fully processed trace prefix
the total resident-page count plus the free-frame count equals
`NUM_FRAMES`: an under-budget fault moves exactly one frame out of the free
pool, and an eviction touches neither count. -/
theorem frames_conserved (s s2 : Simulation) (t : List VirtualAddress)
    (hinit : InitialSim s) (hM : 1 ≤ s.flags.max_frames)
    (hbud : t.length ≤ INT_MAX) (hrun : runPrefix s t = some s2) :
    s.free_frames = List.range NUM_FRAMES ∧
    (s2.processes.map (fun pr => pr.2.get_rss)).sum + s2.free_frames.length =
      NUM_FRAMES := by
  obtain ⟨hT, hB, hK, hF, hFr⟩ := initial_invs s hinit
  have hbud2 : s.time + t.length ≤ INT_MAX := by
    rw [hinit.1]
    simpa using hbud
  exact ⟨hinit.2.1, (runPrefix_post t s s2 hT hB hK hF hFr hM hbud2 hrun).2⟩

/-- Concrete check of C4 on the witness run (one fault consumes one frame,
the later eviction consumes none). -/
theorem frames_conserved_witness :
    wSim.free_frames = List.range NUM_FRAMES ∧
    (((runPrefix wSim wTrace).getD wSim).processes.map (fun pr => pr.2.get_rss)).sum +
      ((runPrefix wSim wTrace).getD wSim).free_frames.length = NUM_FRAMES := by
  have hsome : runPrefix wSim wTrace = some ((runPrefix wSim wTrace).getD wSim) := by decide
  exact frames_conserved wSim _ wTrace (by decide) (by decide) (by decide) hsome

/-- Counterexample to C4 as stated: with `max_frames = 0` the eviction path
marks a page present without taking a frame from the free pool, so the
accounting `sum of rss + free = NUM_FRAMES` breaks after one access. -/
theorem frames_not_conserved_with_zero_max_frames :
    ¬ (∀ (s s2 : Simulation) (t : List VirtualAddress),
        InitialSim s → t.length ≤ INT_MAX → runPrefix s t = some s2 →
        (s2.processes.map (fun pr => pr.2.get_rss)).sum + s2.free_frames.length =
          NUM_FRAMES) := by
  intro hclaim
  have hsome : runPrefix cSim cTrace = some ((runPrefix cSim cTrace).getD cSim) := by decide
  have hres := hclaim cSim _ cTrace (by decide) (by decide) hsome
  exact absurd hres (by decide)

/-- Claim C7: starting from an initialised simulation, every page-table
entry of every process satisfies `loaded_at ≤ last_accessed_at` after every
fully processed trace prefix: a fault sets both fields to the current time,
and a hit raises only `last_accessed_at`, which the monotone clock never
moves below `loaded_at`. -/
theorem loaded_at_le_last_accessed_at (s s2 : Simulation) (t : List VirtualAddress)
    (hinit : InitialSim s) (hrun : runPrefix s t = some s2) :
    ∀ pr ∈ s2.processes, ∀ r ∈ pr.2.page_table.rows,
      r.loaded_at ≤ r.last_accessed_at := by
  obtain ⟨hT, _, _, _, _⟩ := initial_invs s hinit
  exact runPrefix_rows t s s2 hT hrun

/-- Concrete check of C7 on the witness run: row 0 of process 0 satisfies
the temporal ordering after the trace. -/
theorem loaded_at_le_last_accessed_at_witness :
    (((((runPrefix wSim wTrace).getD wSim).lookupProcess 0).getD
        (freshProcess 0 [])).page_table.rowAt 0).loaded_at ≤
      (((((runPrefix wSim wTrace).getD wSim).lookupProcess 0).getD
        (freshProcess 0 [])).page_table.rowAt 0).last_accessed_at := by
  have hsome : runPrefix wSim wTrace = some ((runPrefix wSim wTrace).getD wSim) := by decide
  have hall := loaded_at_le_last_accessed_at wSim ((runPrefix wSim wTrace).getD wSim)
    wTrace (by decide) hsome
  exact hall (0, (((runPrefix wSim wTrace).getD wSim).lookupProcess 0).getD
      (freshProcess 0 [])) (by decide)
    ((((((runPrefix wSim wTrace).getD wSim).lookupProcess 0).getD
      (freshProcess 0 [])).page_table.rowAt 0)) (by decide)

/-- Claim C5: an access whose page index is outside the process's page table
first bumps that process's access counter, then halts the whole run with a
fatal invalid-page fault: no further trace entries are consumed, and the
halting state differs from the pre-access state only in that counter — the
free-frame pool, the fault counters and the clock are untouched. -/
theorem invalid_page_halts (s : Simulation) (va : VirtualAddress)
    (rest : List VirtualAddress) (proc : Process)
    (hfind : s.lookupProcess va.process_id = some proc)
    (hinvalid : proc.is_valid_page va.page = false) :
    runAux s (va :: rest) =
      SimOutcome.halted
        (s.updateProcess va.process_id
          { proc with memory_accesses := proc.memory_accesses + 1 })
        FaultReason.invalidPage ∧
    (s.updateProcess va.process_id
      { proc with memory_accesses := proc.memory_accesses + 1 }).free_frames =
        s.free_frames ∧
    (s.updateProcess va.process_id
      { proc with memory_accesses := proc.memory_accesses + 1 }).page_faults =
        s.page_faults ∧
    (s.updateProcess va.process_id
      { proc with memory_accesses := proc.memory_accesses + 1 }).time = s.time := by
  have hv2 : ({ proc with memory_accesses := proc.memory_accesses + 1 } :
      Process).is_valid_page va.page = false := hinvalid
  refine ⟨?_, rfl, rfl, rfl⟩
  simp only [runAux, Simulation.perform_memory_access, hfind, hv2, if_pos]

/-- Concrete check of C5: accessing page 5 of a two-page process halts the
run at once with only the access counter bumped. -/
theorem invalid_page_halts_witness :
    runAux wSim (VirtualAddress.mk 0 5 0 :: [VirtualAddress.mk 0 0 0]) =
      SimOutcome.halted
        (wSim.updateProcess 0
          { freshProcess 2 [16, 16] with
            memory_accesses := (freshProcess 2 [16, 16]).memory_accesses + 1 })
        FaultReason.invalidPage ∧
    (wSim.updateProcess 0
      { freshProcess 2 [16, 16] with
        memory_accesses := (freshProcess 2 [16, 16]).memory_accesses + 1 }).free_frames =
      wSim.free_frames ∧
    (wSim.updateProcess 0
      { freshProcess 2 [16, 16] with
        memory_accesses := (freshProcess 2 [16, 16]).memory_accesses + 1 }).page_faults =
      wSim.page_faults ∧
    (wSim.updateProcess 0
      { freshProcess 2 [16, 16] with
        memory_accesses := (freshProcess 2 [16, 16]).memory_accesses + 1 }).time =
      wSim.time :=
  invalid_page_halts wSim (VirtualAddress.mk 0 5 0) [VirtualAddress.mk 0 0 0]
    (freshProcess 2 [16, 16]) (by decide) (by decide)

theorem hpf_isSome (s : Simulation) (proc : Process) (page : Nat)
    (hfree : s.free_frames ≠ []) :
    s.handle_page_fault proc page ≠ none := by
  unfold Simulation.handle_page_fault
  split
  · rcases hff : s.free_frames with _ | ⟨f, rest⟩
    · exact absurd hff hfree
    · simp [hff]
  · split <;> simp

theorem hpf_pages (s : Simulation) (proc : Process) (page : Nat)
    (s2 : Simulation) (p2 : Process)
    (h : s.handle_page_fault proc page = some (s2, p2)) :
    p2.pages = proc.pages ∧ s2.flags = s.flags := by
  rcases hpf_shape s proc page s2 p2 h with
    ⟨hrss, fi, rest, hff, hs2, hp2⟩ | ⟨hrss, v, hv, hs2, hp2⟩ <;>
    rw [hs2, hp2] <;> exact ⟨rfl, rfl⟩

/-- Claim C6 (amended: the source checks the byte offset only when the
verbose flag is set): if verbose output is on, an access with a valid page
index but an offset outside the page's valid byte range halts the whole run
with a fatal invalid-offset fault, and no further trace entries are
consumed. (`s.free_frames ≠ []` rules out the undefined-behaviour path of
`front()` on an empty list.) -/
theorem invalid_offset_halts_when_verbose (s : Simulation) (va : VirtualAddress)
    (rest : List VirtualAddress) (proc : Process)
    (hfind : s.lookupProcess va.process_id = some proc)
    (hvalid : proc.is_valid_page va.page = true)
    (hoffset : proc.is_valid_offset va.page va.offset = false)
    (hverbose : s.flags.verbose = true)
    (hfree : s.free_frames ≠ []) :
    ∃ s2, runAux s (va :: rest) = SimOutcome.halted s2 FaultReason.invalidOffset := by
  have hv2 : ({ proc with memory_accesses := proc.memory_accesses + 1 } :
      Process).is_valid_page va.page = true := hvalid
  simp only [runAux, Simulation.perform_memory_access, hfind, hv2]
  rw [if_neg (by simp [hv2])]
  by_cases hpres : (({ proc with memory_accesses := proc.memory_accesses + 1 } :
      Process).page_table.rowAt va.page).present = true
  · rw [if_pos hpres]
    have hoff2 : ({ proc with
        memory_accesses := proc.memory_accesses + 1,
        page_table := ({ proc with memory_accesses := proc.memory_accesses + 1 } :
            Process).page_table.setRow va.page
          { ({ proc with memory_accesses := proc.memory_accesses + 1 } :
              Process).page_table.rowAt va.page with
            last_accessed_at := s.time } } : Process).is_valid_offset va.page
        va.offset = false := hoffset
    rw [if_pos (by rw [hverbose, hoff2]; rfl)]
    exact ⟨_, rfl⟩
  · rw [if_neg hpres]
    rcases hfp : s.handle_page_fault
        { proc with memory_accesses := proc.memory_accesses + 1 } va.page with _ | ⟨s3, p3⟩
    · exact absurd hfp (hpf_isSome s _ va.page hfree)
    · obtain ⟨hpg, hfl⟩ := hpf_pages s _ va.page s3 p3 hfp
      have hoff3 : p3.is_valid_offset va.page va.offset = false := by
        simp only [Process.is_valid_offset, hpg]
        exact hoffset
      dsimp only
      rw [if_pos (by rw [hfl, hverbose, hoff3]; rfl)]
      exact ⟨_, rfl⟩

/-- Concrete check of the amended C6: with verbose on, an access at offset 7
of a one-byte page halts the run with an invalid-offset fault. -/
theorem invalid_offset_halts_when_verbose_witness :
    ∃ s2, runAux wOffSim (VirtualAddress.mk 0 0 7 :: []) =
      SimOutcome.halted s2 FaultReason.invalidOffset :=
  invalid_offset_halts_when_verbose wOffSim (VirtualAddress.mk 0 0 7) []
    (freshProcess 1 [1]) (by decide) (by decide) (by decide) (by decide) (by decide)

/-- Counterexample to C6 as stated: with the verbose flag off, an access
with a valid page but an invalid byte offset does not halt the run — the
whole two-access trace is consumed and the run finishes normally, so the
offset check is not performed "regardless of configuration flags". -/
theorem invalid_offset_not_fatal_without_verbose :
    ¬ (∀ (s : Simulation) (va : VirtualAddress) (rest : List VirtualAddress)
        (proc : Process),
        s.lookupProcess va.process_id = some proc →
        proc.is_valid_page va.page = true →
        proc.is_valid_offset va.page va.offset = false →
        ∃ s2, runAux s (va :: rest) = SimOutcome.halted s2 FaultReason.invalidOffset) := by
  intro hclaim
  obtain ⟨s2, hs2⟩ := hclaim cOffSim (VirtualAddress.mk 0 0 7) [VirtualAddress.mk 0 0 7]
    (freshProcess 1 [1]) (by decide) (by decide) (by decide)
  have hfin : isFinished
      (runAux cOffSim (VirtualAddress.mk 0 0 7 :: [VirtualAddress.mk 0 0 7])) = true := by
    decide
  rw [hs2] at hfin
  simp [isFinished] at hfin

theorem countP_le_one_unique (p : PageTableRow → Bool) :
    ∀ (l : List PageTableRow), l.countP p ≤ 1 →
      ∀ i j (hi : i < l.length) (hj : j < l.length),
        p (l.get ⟨i, hi⟩) = true → p (l.get ⟨j, hj⟩) = true → i = j := by
  intro l
  induction l with
  | nil => intro _ i j hi; exact absurd hi (Nat.not_lt_zero i)
  | cons x xs ih =>
    intro h i j hi hj hpi hpj
    rw [List.countP_cons] at h
    match i, j with
    | 0, 0 => rfl
    | 0, Nat.succ j2 =>
      exfalso
      simp only [List.get] at hpi hpj
      have hx : 0 < xs.countP p :=
        List.countP_pos_iff.mpr ⟨_, List.get_mem xs j2 (Nat.lt_of_succ_lt_succ hj), hpj⟩
      rw [hpi] at h
      simp only [if_pos] at h
      omega
    | Nat.succ i2, 0 =>
      exfalso
      simp only [List.get] at hpi hpj
      have hx : 0 < xs.countP p :=
        List.countP_pos_iff.mpr ⟨_, List.get_mem xs i2 (Nat.lt_of_succ_lt_succ hi), hpi⟩
      rw [hpj] at h
      simp only [if_pos] at h
      omega
    | Nat.succ i2, Nat.succ j2 =>
      simp only [List.get] at hpi hpj
      have h2 : xs.countP p ≤ 1 := by omega
      exact congrArg Nat.succ
        (ih h2 i2 j2 (Nat.lt_of_succ_lt_succ hi) (Nat.lt_of_succ_lt_succ hj) hpi hpj)

/-- On a table holding exactly one present row, both victim scans return the
same index (the unique present row). -/
theorem victims_agree (pt : PageTable)
    (hone : pt.get_present_page_count = 1)
    (hbd : ∀ r ∈ pt.rows, r.present = true →
      r.loaded_at < INT_MAX ∧ r.last_accessed_at < INT_MAX) :
    pt.get_oldest_page = pt.get_least_recently_used_page := by
  have hex : ∃ r ∈ pt.rows, r.present = true := by
    have hpos : 0 < pt.rows.countP (fun r => r.present) := by
      have : pt.rows.countP (fun r => r.present) = 1 := hone
      omega
    simpa using List.countP_pos_iff.mp hpos
  obtain ⟨hj1, hp1, _, _⟩ :=
    scanMin_correct (fun r => r.loaded_at) pt.rows hex (fun r hr hp => (hbd r hr hp).1)
  obtain ⟨hj2, hp2, _, _⟩ :=
    scanMin_correct (fun r => r.last_accessed_at) pt.rows hex (fun r hr hp => (hbd r hr hp).2)
  have hle : pt.rows.countP (fun r => r.present) ≤ 1 := by
    have : pt.rows.countP (fun r => r.present) = 1 := hone
    omega
  exact countP_le_one_unique (fun r => r.present) pt.rows hle _ _ hj1 hj2 hp1 hp2

theorem setStrategy_self (s : Simulation) (strat : ReplacementStrategy)
    (h : s.flags.strategy = strat) : s.setStrategy strat = s := by
  rcases s with ⟨⟨v, m, st⟩, prs, fr, pf, t⟩
  subst h
  rfl

/-- With a one-frame budget, `handle_page_fault` behaves identically under
FIFO and LRU: the under-budget path never consults the strategy, and at
budget the resident set is a single page, on which both scans agree. -/
theorem hpf_strategy (s : Simulation) (proc : Process) (page : Nat)
    (hrss : proc.get_rss ≤ 1)
    (hbd : ∀ r ∈ proc.page_table.rows, r.present = true →
      r.loaded_at < INT_MAX ∧ r.last_accessed_at < INT_MAX) :
    (s.setStrategy ReplacementStrategy.FIFO).handle_page_fault proc page =
      ((s.setStrategy ReplacementStrategy.LRU).handle_page_fault proc page).map
        (fun pr => (pr.1.setStrategy ReplacementStrategy.FIFO, pr.2)) := by
  unfold Simulation.handle_page_fault
  dsimp only [Simulation.setStrategy]
  by_cases hlt : proc.get_rss < s.flags.max_frames
  · rw [if_pos hlt, if_pos hlt]
    rcases hff : s.free_frames with _ | ⟨f, rest⟩ <;> rfl
  · rw [if_neg hlt, if_neg hlt]
    rw [if_pos rfl, if_neg (by simp)]
    have hagree : proc.page_table.get_oldest_page =
        proc.page_table.get_least_recently_used_page := by
      by_cases h0 : proc.get_rss = 0
      · have hnone : ∀ r ∈ proc.page_table.rows, r.present = false := by
          intro r hr
          by_contra hc
          have hpos : 0 < proc.page_table.rows.countP (fun r => r.present) :=
            List.countP_pos_iff.mpr ⟨r, hr, by simpa using hc⟩
          have h0c : proc.page_table.rows.countP (fun r => r.present) = 0 := h0
          omega
        have hz1 : proc.page_table.get_oldest_page = 0 :=
          scanMinAux_of_none (fun r => r.loaded_at) proc.page_table.rows 0 0 INT_MAX
            (fun r hr hc => by rw [hnone r hr] at hc; exact absurd hc.2 (by simp))
        have hz2 : proc.page_table.get_least_recently_used_page = 0 :=
          scanMinAux_of_none (fun r => r.last_accessed_at) proc.page_table.rows 0 0 INT_MAX
            (fun r hr hc => by rw [hnone r hr] at hc; exact absurd hc.2 (by simp))
        rw [hz1, hz2]
      · have hone : proc.page_table.get_present_page_count = 1 := by
          have h2 : proc.get_rss ≤ 1 := hrss
          have h3 : proc.get_rss = 1 := by omega
          exact h3
        exact victims_agree proc.page_table hone hbd
    rw [hagree]
    rfl

theorem setStrategy_verbose (s : Simulation) (strat : ReplacementStrategy) :
    (s.setStrategy strat).flags.verbose = s.flags.verbose := rfl

theorem setStrategy_time (s : Simulation) (strat : ReplacementStrategy) :
    (s.setStrategy strat).time = s.time := rfl

/-- With a one-frame budget, one access behaves identically under FIFO and
LRU, up to the strategy flag recorded in the state. -/
theorem step_strategy (s : Simulation) (va : VirtualAddress)
    (hM : s.flags.max_frames = 1) (hT : TimeInv s) (hB : BudgetInv s)
    (ht : s.time ≤ INT_MAX) :
    (s.setStrategy ReplacementStrategy.FIFO).perform_memory_access va =
      mapStep (fun x => x.setStrategy ReplacementStrategy.FIFO)
        ((s.setStrategy ReplacementStrategy.LRU).perform_memory_access va) := by
  unfold Simulation.perform_memory_access
  have hlk : ∀ strat, (s.setStrategy strat).lookupProcess va.process_id =
      s.lookupProcess va.process_id := fun _ => rfl
  rw [hlk, hlk]
  rcases hfind : s.lookupProcess va.process_id with _ | proc
  · rfl
  · dsimp only
    by_cases hvp : ({ proc with memory_accesses := proc.memory_accesses + 1 } :
        Process).is_valid_page va.page = false
    · rw [if_pos hvp, if_pos hvp]
      rfl
    · rw [if_neg hvp, if_neg hvp]
      by_cases hpres : (({ proc with memory_accesses := proc.memory_accesses + 1 } :
          Process).page_table.rowAt va.page).present = true
      · rw [if_pos hpres, if_pos hpres]
        simp only [setStrategy_verbose, setStrategy_time]
        split <;> rfl
      · rw [if_neg hpres, if_neg hpres]
        have hmem : proc ∈ (s.processes.map (fun pr => pr.2)) := by
          simp only [Simulation.lookupProcess] at hfind
          rcases hfp2 : s.processes.find? (fun pr => decide (pr.1 = va.process_id)) with
            _ | pr0
          · rw [hfp2] at hfind
            exact absurd hfind (by simp)
          · rw [hfp2] at hfind
            simp only [Option.map_some', Option.some.injEq] at hfind
            exact List.mem_map.mpr ⟨pr0, List.mem_of_find?_eq_some hfp2, hfind⟩
        have hb : proc.get_rss ≤ 1 := by
          rcases List.mem_map.mp hmem with ⟨pr0, hpr0, hpr0e⟩
          have := hB pr0 hpr0
          rw [hpr0e, hM] at this
          exact this
        have hrssb : ({ proc with memory_accesses := proc.memory_accesses + 1 } :
            Process).get_rss ≤ 1 := hb
        have hbd : ∀ r ∈ ({ proc with memory_accesses := proc.memory_accesses + 1 } :
            Process).page_table.rows, r.present = true →
            r.loaded_at < INT_MAX ∧ r.last_accessed_at < INT_MAX := by
          intro r hr hp
          rcases List.mem_map.mp hmem with ⟨pr0, hpr0, hpr0e⟩
          have hr2 : r ∈ pr0.2.page_table.rows := by rw [hpr0e]; exact hr
          have hprops := hT pr0 hpr0 r hr2
          have hlast : r.last_accessed_at < INT_MAX :=
            Nat.lt_of_lt_of_le (hprops.2 hp) ht
          exact ⟨Nat.lt_of_le_of_lt hprops.1 hlast, hlast⟩
        have hh := hpf_strategy s { proc with memory_accesses := proc.memory_accesses + 1 }
          va.page hrssb hbd
        rw [hh]
        rcases hfp : (s.setStrategy ReplacementStrategy.LRU).handle_page_fault
            { proc with memory_accesses := proc.memory_accesses + 1 } va.page with
          _ | ⟨s3, p3⟩
        · rfl
        · dsimp only [Option.map]
          simp only [setStrategy_verbose, setStrategy_time]
          split <;> rfl

/-- Run-level strategy equivalence, generalised over any invariant-respecting
state whose configured strategy is LRU and whose frame budget is one. -/
theorem runAux_strategy (t : List VirtualAddress) :
    ∀ u : Simulation, u.flags.strategy = ReplacementStrategy.LRU →
      u.flags.max_frames = 1 → TimeInv u → BudgetInv u → KeysNodup u → FreeNodup u →
      u.time + t.length ≤ INT_MAX →
      runAux (u.setStrategy ReplacementStrategy.FIFO) t =
        mapOutcome (fun x => x.setStrategy ReplacementStrategy.FIFO) (runAux u t) := by
  induction t with
  | nil =>
    intro u hstrat hM hT hB hK hF hbud
    rfl
  | cons va rest ih =>
    intro u hstrat hM hT hB hK hF hbud
    have ht : u.time ≤ INT_MAX := by
      simp only [List.length_cons] at hbud
      omega
    have hstep := step_strategy u va hM hT hB ht
    rw [setStrategy_self u ReplacementStrategy.LRU hstrat] at hstep
    simp only [runAux]
    rw [hstep]
    rcases hS : u.perform_memory_access va with s3 | ⟨s3, fr⟩ | _
    · dsimp only [mapStep]
      obtain ⟨htime, hflags, hrows⟩ := step_rows u va s3 hT (Or.inl hS)
      obtain ⟨hkeys, hfnd, hbud3, hsum3⟩ :=
        step_post u va s3 hT hB hK hF (by rw [hM]) ht (Or.inl hS)
      have hfl3 : ({ s3 with time := s3.time + 1 } : Simulation).flags = u.flags := hflags
      have hstrat3 : ({ s3 with time := s3.time + 1 } : Simulation).flags.strategy =
          ReplacementStrategy.LRU := by rw [hfl3, hstrat]
      have hM3 : ({ s3 with time := s3.time + 1 } : Simulation).flags.max_frames = 1 := by
        rw [hfl3, hM]
      have hT3 : TimeInv { s3 with time := s3.time + 1 } := by
        intro pr hpr r hr
        have := hrows pr hpr r hr
        refine ⟨this.1, fun hp => ?_⟩
        have h2 := this.2 hp
        simp only
        omega
      have hB3 : BudgetInv { s3 with time := s3.time + 1 } := by
        intro pr hpr
        rw [hfl3]
        exact hbud3 pr hpr
      have hK3 : KeysNodup { s3 with time := s3.time + 1 } := by
        have heq : ({ s3 with time := s3.time + 1 } : Simulation).processes.map Prod.fst =
            u.processes.map Prod.fst := hkeys
        rw [KeysNodup, heq]
        exact hK
      have hbud3t : ({ s3 with time := s3.time + 1 } : Simulation).time + rest.length ≤
          INT_MAX := by
        simp only [List.length_cons] at hbud
        simp only
        omega
      exact ih { s3 with time := s3.time + 1 } hstrat3 hM3 hT3 hB3 hK3 hfnd hbud3t
    · rfl
    · rfl

/-- Claim C8: with a one-frame budget (`max_frames = 1`), the FIFO and LRU
engines are behaviourally equivalent: starting from the same initialised
state, every trace produces the same outcome — the same hit/fault/halt
behaviour and the same final page tables, counters and free pool — up to
the strategy flag recorded in the configuration. Quantifying over all
traces (hence all prefixes) this also pins the victim of every eviction to
the single resident page. -/
theorem fifo_lru_equivalent_when_single_frame (s : Simulation)
    (t : List VirtualAddress) (hinit : InitialSim s)
    (hM : s.flags.max_frames = 1) (hbud : t.length ≤ INT_MAX) :
    runAux (s.setStrategy ReplacementStrategy.FIFO) t =
      mapOutcome (fun x => x.setStrategy ReplacementStrategy.FIFO)
        (runAux (s.setStrategy ReplacementStrategy.LRU) t) := by
  obtain ⟨hT, hB, hK, hF, hFr⟩ := initial_invs s hinit
  have h1 : (s.setStrategy ReplacementStrategy.LRU).setStrategy ReplacementStrategy.FIFO =
      s.setStrategy ReplacementStrategy.FIFO := rfl
  rw [← h1]
  refine runAux_strategy t (s.setStrategy ReplacementStrategy.LRU) rfl hM hT hB hK hF ?_
  have : (s.setStrategy ReplacementStrategy.LRU).time = s.time := rfl
  rw [this, hinit.1]
  simpa using hbud

/-- Concrete check of C8: the degenerate one-frame scenario yields identical
outcomes under both strategies on a three-access trace. -/
theorem fifo_lru_equivalent_when_single_frame_witness :
    runAux (wSim.setStrategy ReplacementStrategy.FIFO) wTrace =
      mapOutcome (fun x => x.setStrategy ReplacementStrategy.FIFO)
        (runAux (wSim.setStrategy ReplacementStrategy.LRU) wTrace) :=
  fifo_lru_equivalent_when_single_frame wSim wTrace (by decide) (by decide) (by decide)
